import Mathlib

/-
Verification of the CDEDatabase record store (cdedatabase/database.py,
cdedatabase/coder.py, cdedatabase/jsoncoder.py) against its specification.

The development shallowly embeds the file-backed (JSON) storage path:

* records (instances of CDE models) become the mutual inductive `CRec`
  (a node carries its type name, an optional integer identifier, its scalar
  fields and its nested-record fields).  The Python object model stores all
  fields in one ordered descriptor dictionary; the codec reads a field's
  value through `record[field_name]` and decides how to treat it from the
  field DESCRIPTOR's kind (`_is_list_type`, `model_class`), so a record is
  modelled by its kind-separated contents: scalar fields (already in
  serialized form, `Value`; the object-model contract of spec section 6
  guarantees scalar serialization is invertible, so it is modelled as the
  identity) and nested fields in declaration order (`NFlds`).  A field whose
  value is Python `None` is modelled as absent from the record, matching the
  `record[field_name] is not None` guards.
* flat rows (`Row`) are the dictionary forms produced by
  `CDEDatabase.dictionary_form`: the `_id` entry plus one entry per present
  field, whose value (`DVal`) is a serialized scalar, a sub-record id, a
  list of ids, or null (`dictionary_form` stores None for a present nested
  list field whose element list is empty).
* the file backend state (`St`) holds, per database name and record type,
  the optional data file and the optional id-ledger file, plus the
  process-wide `_max_ids` cache of `PlainTextCoder` (keyed by record type
  only, exactly as in the source).  A data file is modelled at the record
  line level (`JLine`: one row plus its trailing-comma flag); the physical
  file is the opening marker line, the record lines (a single blank line
  instead when there are none, as written by `JSONCoder._initialise` and by
  a delete that drops every record), and the closing marker.  The byte
  operations of `JSONCoder.add` (truncate the final two bytes, test whether
  the byte now last is a newline, append) are modelled by their effect on
  this structure: the file is populated exactly when it has a record line,
  and in that case the comma continuation attaches to the previously last
  record line.  This correspondence is exact on every state reachable by
  the operations because the separator invariant (proved below for claim
  C6) holds there.
* a Python statement that raises (the IndexError from `line[-2]` on the
  blank line of an empty data file, the FileNotFoundError from opening a
  missing ledger) is modelled by a `false` success flag; the returned state
  carries exactly the mutations performed before the raise, since the
  temporary-file rewrites only replace the original on success.

`createRecord` (`CDEDatabase.create_record`) recurses through the store,
not through its argument, and diverges on cyclic store data, so it is
embedded with explicit fuel; theorems about it assume enough fuel for the
tree at hand.  `BaseModel.serialize` is external to this repository;
`CRec.canon` below is modelled from the spec.
-/

namespace CDEDB

/-- Record type names (Python classes are identified by `__name__`). -/
abbrev RType := String

/-- Field names. -/
abbrev FName := String

/-- Database names (`db_name`). -/
abbrev DBName := String

/-- A serialized scalar value (`field.serialize(record[field_name])`).
Scalar payloads are opaque to the codec, so one atom type suffices. -/
abbrev Value := String

/-- The declared kind of a field, as the codec observes it through
`_is_list_type` and `_get_nested(...).model_class`: a scalar field (this
includes lists of scalars, which take the `field.serialize` branch), a
single nested record of a declared sub-type, or a list of nested records
of a declared sub-type. -/
inductive FKind : Type where
  | scalar : FKind
  | nested (sub : RType) : FKind
  | nestedList (sub : RType) : FKind
  deriving DecidableEq, Repr

/-- A field schema: the declared kind of each field of each record type,
provided by the external object-model system (spec section 6). -/
abbrev Decl := RType → FName → Option FKind

/-- A value stored in a flat row under one key. `null` is the Python None
written by `dictionary_form` for a present nested list field whose
collected id list is empty. -/
inductive DVal : Type where
  | null : DVal
  | idv (n : Nat) : DVal
  | idList (ns : List Nat) : DVal
  | val (v : Value) : DVal
  deriving DecidableEq, Repr

/-- A flat row (the dictionary form of one record): its `_id` entry and the
remaining key/value entries in insertion order. -/
structure Row : Type where
  id : Nat
  flds : List (FName × DVal)
  deriving DecidableEq, Repr

mutual
/-- A CDE record: type name, optional identifier (`_id`), scalar fields in
serialized form, and nested-record fields. -/
inductive CRec : Type where
  | mk (rtype : RType) (rid : Option Nat) (scalars : List (FName × Value))
       (nested : NFlds)
  deriving DecidableEq
/-- The nested-record fields of a record, in declaration order: each entry
is either a single nested record or a list of nested records. -/
inductive NFlds : Type where
  | nil : NFlds
  | single (name : FName) (r : CRec) (rest : NFlds) : NFlds
  | list (name : FName) (rs : RecL) (rest : NFlds) : NFlds
  deriving DecidableEq
/-- An ordered list of nested records (the value of a list field). -/
inductive RecL : Type where
  | rnil : RecL
  | rcons (r : CRec) (rest : RecL) : RecL
  deriving DecidableEq
end

def CRec.rtype : CRec → RType
  | .mk t _ _ _ => t

def CRec.rid : CRec → Option Nat
  | .mk _ i _ _ => i

def CRec.scalars : CRec → List (FName × Value)
  | .mk _ _ sc _ => sc

def CRec.nested : CRec → NFlds
  | .mk _ _ _ nf => nf

/-- The identifier of a record whose `_id` is set (0 as a dummy otherwise;
every use below is on records whose identifiers have been assigned). -/
def CRec.idOr0 (r : CRec) : Nat := r.rid.getD 0

/-- Append two nested-field lists. -/
def NFlds.appendNF : NFlds → NFlds → NFlds
  | .nil, b => b
  | .single f r rest, b => .single f r (rest.appendNF b)
  | .list f rs rest, b => .list f rs (rest.appendNF b)

/-- Build a `RecL` from a Lean list. -/
def RecL.ofList : List CRec → RecL
  | [] => .rnil
  | r :: rs => .rcons r (RecL.ofList rs)

/-- The elements of a `RecL` as a Lean list. -/
def RecL.toList : RecL → List CRec
  | .rnil => []
  | .rcons r rest => r :: rest.toList

/-- First single-nested entry named `f` (the reconstructed value of a
declared single nested field; `none` models Python None / field unset). -/
def NFlds.findSub : NFlds → FName → Option CRec
  | .nil, _ => none
  | .single g r rest, f => if g = f then some r else rest.findSub f
  | .list _ _ rest, f => rest.findSub f

/-- First list-nested entry named `f`. -/
def NFlds.findList : NFlds → FName → Option RecL
  | .nil, _ => none
  | .single _ _ rest, f => rest.findList f
  | .list g rs rest, f => if g = f then some rs else rest.findList f

/-- First nested entry named `f` when it is a list entry; `none` when `f`
is absent or its first entry is a single nested record. -/
def NFlds.listAt : NFlds → FName → Option RecL
  | .nil, _ => none
  | .single g _ rest, f => if g = f then none else rest.listAt f
  | .list g rs rest, f => if g = f then some rs else rest.listAt f

/-- Names of the nested entries, in order. -/
def NFlds.names : NFlds → List FName
  | .nil => []
  | .single f _ rest => f :: rest.names
  | .list f _ rest => f :: rest.names

mutual
/-- Depth of a record tree (1 for a leaf); used to bound the fuel of
`createRecord`. -/
def CRec.depth : CRec → Nat
  | .mk _ _ _ nf => 1 + nf.depth
def NFlds.depth : NFlds → Nat
  | .nil => 0
  | .single _ r rest => max r.depth rest.depth
  | .list _ rs rest => max rs.depth rest.depth
def RecL.depth : RecL → Nat
  | .rnil => 0
  | .rcons r rest => max r.depth rest.depth
end

mutual
/-- Every identifier in the tree is unset (the records have never been
persisted; `CDEDatabase.assign_ids` will allocate all of them). -/
def CRec.noIds : CRec → Bool
  | .mk _ i _ nf => i.isNone && nf.noIds
def NFlds.noIds : NFlds → Bool
  | .nil => true
  | .single _ r rest => r.noIds && rest.noIds
  | .list _ rs rest => rs.noIds && rest.noIds
def RecL.noIds : RecL → Bool
  | .rnil => true
  | .rcons r rest => r.noIds && rest.noIds
end

mutual
/-- The record tree is well typed for the schema `decl`: each stored field
value matches the declared kind of its name, recursively.  This is exactly
what the Python object model guarantees by construction (a descriptor of
list kind holds a list of models of its `model_class`, and so on). -/
def CRec.wt (decl : Decl) : CRec → Bool
  | .mk t _ sc nf => sc.all (fun p => decl t p.1 = some .scalar) && nf.wt decl t
def NFlds.wt (decl : Decl) : NFlds → RType → Bool
  | .nil, _ => true
  | .single f r rest, t =>
      decide (decl t f = some (.nested r.rtype)) && r.wt decl && rest.wt decl t
  | .list f rs rest, t =>
      (match decl t f with
       | some (.nestedList u) => rs.allType u && rs.wt decl
       | _ => false) && rest.wt decl t
def RecL.allType (u : RType) : RecL → Bool
  | .rnil => true
  | .rcons r rest => r.rtype = u && rest.allType u
def RecL.wt (decl : Decl) : RecL → Bool
  | .rnil => true
  | .rcons r rest => r.wt decl && rest.wt decl
end

/-- Boolean no-duplicates check on a list of field names. -/
def nodupB : List FName → Bool
  | [] => true
  | f :: fs => !fs.contains f && nodupB fs

mutual
/-- Field names are pairwise distinct in every record of the tree, as is
forced in Python by records being objects with one value per field and
rows being dictionaries. -/
def CRec.namesOk : CRec → Bool
  | .mk _ _ sc nf => nodupB (nf.names ++ sc.map Prod.fst) && nf.namesOk
def NFlds.namesOk : NFlds → Bool
  | .nil => true
  | .single _ r rest => r.namesOk && rest.namesOk
  | .list _ rs rest => rs.namesOk && rest.namesOk
def RecL.namesOk : RecL → Bool
  | .rnil => true
  | .rcons r rest => r.namesOk && rest.namesOk
end

mutual
/-- The serialized view of a record, modelled from the spec: the external
`BaseModel.serialize` of ChemDataExtractor is not part of this repository.
Per the docstring of `dictionary_form`, the serialized form omits the
record's `_id`; per spec section 3, a list-typed nested field with an
empty list is indistinguishable from an unset field, so it is dropped.
Two records are "equal field for field in serialized form" exactly when
their `canon` images are equal. -/
def CRec.canon : CRec → CRec
  | .mk t _ sc nf => .mk t none sc nf.canon
def NFlds.canon : NFlds → NFlds
  | .nil => .nil
  | .single f r rest => .single f r.canon rest.canon
  | .list f rs rest =>
      match rs with
      | .rnil => rest.canon
      | .rcons a b => .list f (RecL.rcons a b).canonL rest.canon
def RecL.canonL : RecL → RecL
  | .rnil => .rnil
  | .rcons r rest => .rcons r.canon rest.canonL
end

/-- One record line of a data file: the flat row it encodes (whose `_id`
is also the line's outer JSON key, as written by
`json.dumps({record['_id']: record})`) and whether the line carries the
trailing comma separator (`line[-2] == ','`). -/
structure JLine : Type where
  row : Row
  comma : Bool
  deriving DecidableEq, Repr

/-- A data file between its two marker lines.  The physical file is
`left-marker NL (record lines | single blank line when none) right-marker`;
the blank line is written by `JSONCoder._initialise` and restored by a
delete that drops every record. -/
structure JFile : Type where
  lines : List JLine
  deriving DecidableEq, Repr

/-- The file written by `JSONCoder._initialise`: both markers and no
record line (physically an intervening blank line). -/
def jInit : JFile := ⟨[]⟩

/-- The state of one `JSONCoder` instance together with every file it may
touch.  `maxIds` is the process-wide `_max_ids` cache, keyed by record
type only (not by database name), exactly as in `PlainTextCoder.__init__`.
`dataF` and `ledgerF` are the per-database, per-type data file
(`TypeName.json`) and id-ledger file (`TypeName_ids`); `none` means the
file does not exist.  (`_file_names` also caches discovered paths, but its
membership test is written against the wrong dictionary level and never
hits, so the cache has no observable effect and is not modelled.) -/
structure St : Type where
  maxIds : RType → Option Nat
  dataF : DBName → RType → Option JFile
  ledgerF : DBName → RType → Option (List Nat)

/-- The state of a freshly constructed coder over an empty directory tree:
no cached counters and no files. -/
def freshSt : St := ⟨fun _ => none, fun _ _ => none, fun _ _ => none⟩

/-- Point update of a one-argument function. -/
def fupd {α β : Type} [DecidableEq α] (f : α → β) (a : α) (b : β) : α → β :=
  fun x => if x = a then b else f x

/-- Point update of a two-argument function. -/
def fupd2 {α γ β : Type} [DecidableEq α] [DecidableEq γ]
    (f : α → γ → β) (a : α) (c : γ) (b : β) : α → γ → β :=
  fun x y => if x = a ∧ y = c then b else f x y

@[simp] theorem fupd_same {α β : Type} [DecidableEq α] (f : α → β) (a : α) (b : β) :
    fupd f a b a = b := by simp [fupd]

@[simp] theorem fupd_other {α β : Type} [DecidableEq α] (f : α → β) (a x : α) (b : β)
    (h : x ≠ a) : fupd f a b x = f x := by simp [fupd, h]

@[simp] theorem fupd2_same {α γ β : Type} [DecidableEq α] [DecidableEq γ]
    (f : α → γ → β) (a : α) (c : γ) (b : β) : fupd2 f a c b a c = b := by simp [fupd2]

theorem fupd2_other {α γ β : Type} [DecidableEq α] [DecidableEq γ]
    (f : α → γ → β) (a x : α) (c y : γ) (b : β) (h : ¬(x = a ∧ y = c)) :
    fupd2 f a c b x y = f x y := by simp [fupd2, h]

/-- Maximum of the integers on the lines of a ledger file, starting from 0
(the loop of `PlainTextCoder.next_id`). -/
def maxList : List Nat → Nat
  | [] => 0
  | n :: ns => max n (maxList ns)

/-- `PlainTextCoder.next_id`: on a cache miss for the record type, scan the
ledger file of THIS database (0 when the file is absent) and cache the
maximum; then increment the cached value and return it.  The cache key is
the record type alone. -/
def nextId (t : RType) (db : DBName) (s : St) : Nat × St :=
  let m : Nat :=
    match s.maxIds t with
    | some v => v
    | none =>
        match s.ledgerF db t with
        | none => 0
        | some L => maxList L
  (m + 1, { s with maxIds := fupd s.maxIds t (some (m + 1)) })

/-- `PlainTextCoder.contains_id`: scan the ledger file of the type; a
missing file means `False`.  (`id_ == int(line)` compares the queried id
with each ledger line; ids are integers on this backend.) -/
def coderContains (db : DBName) (t : RType) (i : Nat) (s : St) : Bool :=
  match s.ledgerF db t with
  | none => false
  | some L => L.contains i

/-- Record lines for a batch of new rows appended by `JSONCoder.add`:
every line but the last is comma-terminated, the last is not. -/
def newLines : List Row → List JLine
  | [] => []
  | [r] => [⟨r, false⟩]
  | r :: r2 :: rs => ⟨r, true⟩ :: newLines (r2 :: rs)

/-- Set the comma flag of the last record line.  This is the effect of the
byte sequence in `JSONCoder.add`: truncating the final newline and closing
marker makes the file end inside the previously last record line, and the
`',\n'` continuation written when the file is populated attaches to it. -/
def markLastComma : List JLine → List JLine
  | [] => []
  | [l] => [{ l with comma := true }]
  | l :: l2 :: ls => l :: markLastComma (l2 :: ls)

/-- `JSONCoder.add` on one data file with a non-empty batch: the file is
populated exactly when it already holds a record line (the byte now last
after truncation is not a newline); in that case the previously last line
gains the comma continuation, and the new lines follow. -/
def jAdd (rows : List Row) (f : JFile) : JFile :=
  ⟨markLastComma f.lines ++ newLines rows⟩

/-- Point lookup in a data file: `ijson.items(f, str(id_))` yields the
value of the first top-level entry whose key is the decimal form of the
id; distinct integers have distinct decimal forms (proved below as
`natToString_inj`), so the comparison is by integer. -/
def jfLookup (f : JFile) (i : Nat) : Option Row :=
  (f.lines.find? (fun l => l.row.id = i)).map JLine.row

/-- `JSONCoder.record`: read the (created-if-missing) data file of the
type and return the first row stored under the id, or `None`.  Creating
the missing file adds no record line, so reading through `jInit` is
equivalent; the file-creation side effect is immaterial to every later
lookup and is not threaded. -/
def jsonRecordLookup (db : DBName) (t : RType) (i : Nat) (s : St) : Option Row :=
  jfLookup ((s.dataF db t).getD jInit) i

/-- `PlainTextCoder.add` for one type: append one line per record to the
ledger file, opening it in append mode (which creates it when missing,
even when the record list is empty). -/
def ledgerAdd (db : DBName) (t : RType) (rows : List Row) (s : St) : St :=
  { s with ledgerF :=
      fupd2 s.ledgerF db t (some (((s.ledgerF db t).getD []) ++ rows.map Row.id)) }

/-- `JSONCoder.add`: first the ledger appends of `PlainTextCoder.add` for
every type of the batch, then, for each type with a non-empty row list,
the append to the (created-if-missing) data file. -/
def coderAdd (db : DBName) (batch : List (RType × List Row)) (s : St) : St :=
  let s1 := batch.foldl (fun s p => ledgerAdd db p.1 p.2 s) s
  batch.foldl
    (fun s p =>
      if p.2 = [] then s
      else
        { s with dataF :=
            fupd2 s.dataF db p.1 (some (jAdd p.2 ((s.dataF db p.1).getD jInit))) })
    s1

/-- Lookup in the pending-update map (keys are `str(record['_id'])`;
distinct integer ids have distinct string forms, proved below as
`natToString_inj`). -/
def mapLookup (m : List (Nat × Row)) (i : Nat) : Option Row :=
  (m.find? (fun p => p.1 = i)).map Prod.snd

/-- Remove a key from the pending-update map (`to_update.pop(key)`). -/
def mapErase (m : List (Nat × Row)) (i : Nat) : List (Nat × Row) :=
  m.filter (fun p => p.1 ≠ i)

/-- Dictionary insertion: overwrite in place when the key is present,
append otherwise. -/
def mapInsert (m : List (Nat × Row)) (i : Nat) (r : Row) : List (Nat × Row) :=
  if (m.map Prod.fst).contains i then m.map (fun p => if p.1 = i then (i, r) else p)
  else m ++ [(i, r)]

/-- Build `to_update` from a record list (`to_update[str(record['_id'])] =
record` over the list): keys in first-insertion order, a later record with
the same id overwriting the earlier value. -/
def buildMap (rows : List Row) : List (Nat × Row) :=
  rows.foldl (fun m r => mapInsert m r.id r) []

/-- The line-by-line scan of `JSONCoder.update` over the record lines:
a line whose key is still pending is replaced by the serialized updated
row (its comma convention preserved) and removed from the pending map;
other lines pass through verbatim.  The marker lines pass through outside
this function. -/
def updScan (m : List (Nat × Row)) : List JLine → List JLine
  | [] => []
  | l :: ls =>
      match mapLookup m l.row.id with
      | some r => ⟨r, l.comma⟩ :: updScan (mapErase m l.row.id) ls
      | none => l :: updScan m ls

/-- `JSONCoder.update` for one type.  An empty pending map skips the file
entirely; otherwise the data file is first registered (created when
missing, by `_get_file_name`), and then scanned line by line into a
replacement.  An empty data file physically contains a blank line between
its markers, and the scan's `line[-2]` raises IndexError on it: the flag
is `false` and the data file keeps its pre-scan content. -/
def updStep (db : DBName) (t : RType) (rows : List Row) (s : St) : St × Bool :=
  let m := buildMap rows
  if m = [] then (s, true)
  else
    let f := (s.dataF db t).getD jInit
    let s1 : St := { s with dataF := fupd2 s.dataF db t (some f) }
    if f.lines = [] then (s1, false)
    else ({ s1 with dataF := fupd2 s1.dataF db t (some ⟨updScan m f.lines⟩) }, true)

/-- `JSONCoder.update` over a batch: the types are processed in order and
an exception aborts the remaining types, the completed replacements
staying in place. -/
def coderUpdate (db : DBName) : List (RType × List Row) → St → St × Bool
  | [], s => (s, true)
  | p :: ps, s =>
      match updStep db p.1 p.2 s with
      | (s1, true) => coderUpdate db ps s1
      | (s1, false) => (s1, false)

/-- Numeric value of a decimal digit character (used to invert the
decimal rendering of identifiers and prove it injective). -/
def dval (c : Char) : Nat := c.toNat - 48

/-- The integer spelled by a list of decimal digit characters. -/
def parseDigits (l : List Char) : Nat := l.foldl (fun a c => a * 10 + dval c) 0

/-- `PlainTextCoder.delete` on the ledger lines: a ledger line holds the
decimal rendering `str(record['_id'])` of an identifier, and the source
keeps exactly the lines whose content (`line[:-1]`) is not among the
strings `str(id_)` of the requested ids.  The comparison is therefore
between the `toString` forms of the stored and the requested integers;
`ledgerFilter_eq` below proves this equal to plain integer filtering,
since the decimal rendering is injective (`natToString_inj`). -/
def ledgerFilter (ids : List Nat) (L : List Nat) : List Nat :=
  L.filter (fun i => !(ids.map (fun x => toString x)).contains (toString i))

/-- The line-by-line scan of `JSONCoder.delete` over the record lines,
carrying the previous kept line (stored without its comma): a kept line is
flushed with a comma once a later kept line is found, and the final kept
line is flushed without one when the closing marker is reached. -/
def delScan (ids : List Nat) : List JLine → Option Row → List JLine
  | [], prev =>
      match prev with
      | none => []
      | some p => [⟨p, false⟩]
  | l :: ls, prev =>
      if ids.contains l.row.id then delScan ids ls prev
      else
        match prev with
        | none => delScan ids ls (some l.row)
        | some p => ⟨p, true⟩ :: delScan ids ls (some l.row)

/-- `JSONCoder.delete` for one type.  With no requested ids both phases
are skipped.  Otherwise `PlainTextCoder.delete` runs first: it opens the
ledger file for reading (FileNotFoundError when missing: flag `false`,
nothing changed) and rewrites it without the requested ids.  Then the data
file is registered (created when missing) and scanned; as in `updStep`,
the blank line of an empty data file raises IndexError (`line[-2]`), after
the ledger rewrite has already happened. -/
def coderDelete (db : DBName) (t : RType) (ids : List Nat) (s : St) : St × Bool :=
  if ids = [] then (s, true)
  else
    match s.ledgerF db t with
    | none => (s, false)
    | some L =>
        let s1 : St :=
          { s with ledgerF := fupd2 s.ledgerF db t (some (ledgerFilter ids L)) }
        let f := (s1.dataF db t).getD jInit
        let s2 : St := { s1 with dataF := fupd2 s1.dataF db t (some f) }
        if f.lines = [] then (s2, false)
        else
          ({ s2 with dataF := fupd2 s2.dataF db t (some ⟨delScan ids f.lines none⟩) },
           true)

mutual
/-- `CDEDatabase.assign_ids`: give the record its identifier when unset
(asking `next_id` of the backend), then recurse into every nested field in
order.  The Python function mutates the records; the embedding returns the
updated tree alongside the backend state. -/
def CRec.assignIds (db : DBName) : CRec → St → CRec × St
  | .mk t i sc nf, s =>
      let p : Option Nat × St :=
        match i with
        | some v => (some v, s)
        | none => let q := nextId t db s; (some q.1, q.2)
      let q := nf.assignIds db p.2
      (.mk t p.1 sc q.1, q.2)
def NFlds.assignIds (db : DBName) : NFlds → St → NFlds × St
  | .nil, s => (.nil, s)
  | .single f r rest, s =>
      let q := r.assignIds db s
      let q2 := rest.assignIds db q.2
      (.single f q.1 q2.1, q2.2)
  | .list f rs rest, s =>
      let q := rs.assignIds db s
      let q2 := rest.assignIds db q.2
      (.list f q.1 q2.1, q2.2)
def RecL.assignIds (db : DBName) : RecL → St → RecL × St
  | .rnil, s => (.rnil, s)
  | .rcons r rest, s =>
      let q := r.assignIds db s
      let q2 := rest.assignIds db q.2
      (.rcons q.1 q2.1, q2.2)
end

/-- Identifiers of the elements of a list field, in order
(`list_field.append(subrecord._id)`). -/
def RecL.ids : RecL → List Nat
  | .rnil => []
  | .rcons r rest => r.idOr0 :: rest.ids

/-- Row entries contributed by the nested fields of a record, in order:
a single nested field stores the sub-record's id, a list field stores the
collected id list, or null when that list is empty (the
`dictionary_form[field_name] = None` branch). -/
def NFlds.rowFlds : NFlds → List (FName × DVal)
  | .nil => []
  | .single f r rest => (f, .idv r.idOr0) :: rest.rowFlds
  | .list f rs rest =>
      (f, match rs with
          | .rnil => DVal.null
          | .rcons a b => DVal.idList (RecL.rcons a b).ids) :: rest.rowFlds

/-- The flat row `dictionary_form` builds for one (fully identified)
record: its `_id`, the nested-field entries, then the scalar entries.
(Python interleaves the entries in the declared field order; the relative
order of the two groups is preserved and no operation below observes the
interleaving, every consumer keying on the entry names.) -/
def CRec.ownRow (r : CRec) : Row :=
  ⟨r.idOr0, r.nested.rowFlds ++ r.scalars.map (fun p => (p.1, DVal.val p.2))⟩

mutual
/-- The ordered `(type, row)` list produced by `dictionary_form` for an
already-identified record tree: the rows of every nested record first (in
field order, elements of a list field in list order), then the record's
own row.  In the source this list is built during the same recursion that
re-runs `assign_ids`; on an already-identified tree those inner
`assign_ids` calls change nothing (`assignIds_of_assigned` below), so
flattening is this pure function of the identified tree. -/
def CRec.flatRows : CRec → List (RType × Row)
  | .mk t i sc nf => nf.flatSubs ++ [(t, CRec.ownRow (.mk t i sc nf))]
def NFlds.flatSubs : NFlds → List (RType × Row)
  | .nil => []
  | .single _ r rest => r.flatRows ++ rest.flatSubs
  | .list _ rs rest => rs.flatAll ++ rest.flatSubs
def RecL.flatAll : RecL → List (RType × Row)
  | .rnil => []
  | .rcons r rest => r.flatRows ++ rest.flatAll
end

/-- `dictionary_form`: assign identifiers to the whole tree, then emit the
`(type, row)` list; returns the updated record as well (the source mutates
it in place). -/
def dictionaryForm (db : DBName) (r : CRec) (s : St) :
    List (RType × Row) × CRec × St :=
  let p := r.assignIds db s
  (p.1.flatRows, p.1, p.2)

/-- Insertion into the type-grouped accumulator of `dictionary_forms`:
append to the existing list of the type, or start a new entry. -/
def gInsert (g : List (RType × List Row)) (t : RType) (row : Row) :
    List (RType × List Row) :=
  if (g.map Prod.fst).contains t then
    g.map (fun p => if p.1 = t then (p.1, p.2 ++ [row]) else p)
  else g ++ [(t, [row])]

/-- Group a `(type, row)` list by type, keeping both the first-appearance
order of types and the row order within a type. -/
def groupRows (l : List (RType × Row)) : List (RType × List Row) :=
  l.foldl (fun g q => gInsert g q.1 q.2) []

/-- `CDEDatabase.dictionary_forms`: flatten each record in order,
accumulating the rows into the type-grouped dictionary; returns the
updated records and backend state as well. -/
def dictionaryForms (db : DBName) (records : List CRec) (s : St) :
    List (RType × List Row) × List CRec × St :=
  records.foldl
    (fun acc r =>
      let p := dictionaryForm db r acc.2.2
      (p.1.foldl (fun g q => gInsert g q.1 q.2) acc.1, acc.2.1 ++ [p.2.1], p.2.2))
    ([], [], s)

/-- `CDEDatabase.add`: flatten the records and hand the grouped batch to
`coder.add`. -/
def dbAdd (db : DBName) (records : List CRec) (s : St) : List CRec × St :=
  let p := dictionaryForms db records s
  (p.2.1, coderAdd db p.1 p.2.2)

/-- The classification loop of `CDEDatabase.write` for the rows of one
type: a row whose id the backend already contains goes to the update list,
otherwise to the add list — except that an id already claimed earlier in
the same call (the `taken` accumulator) is skipped entirely.  Returns
`(update_records, add_records)`. -/
def classifyRows (contains : Nat → Bool) : List Row → List Nat → List Row × List Row
  | [], _ => ([], [])
  | r :: rs, taken =>
      if contains r.id then
        if taken.contains r.id then classifyRows contains rs taken
        else
          let p := classifyRows contains rs (taken ++ [r.id])
          (r :: p.1, p.2)
      else
        if taken.contains r.id then classifyRows contains rs taken
        else
          let p := classifyRows contains rs (taken ++ [r.id])
          (p.1, r :: p.2)

/-- The per-type body of `CDEDatabase.write`: classify the type's rows
against `contains_id`, then `coder.add` the add list and `coder.update`
the update list.  (`taken_ids` starts empty for each type: the grouped
batch lists every type once.)  A raise from the update aborts the
remaining types. -/
def writeLoop (db : DBName) : List (RType × List Row) → St → St × Bool
  | [], s => (s, true)
  | q :: qs, s =>
      let c := classifyRows (fun i => coderContains db q.1 i s) q.2 []
      let s1 := coderAdd db [(q.1, c.2)] s
      match coderUpdate db [(q.1, c.1)] s1 with
      | (s2, true) => writeLoop db qs s2
      | (s2, false) => (s2, false)

/-- `CDEDatabase.write`: flatten, group, then classify-and-store each
type. -/
def dbWrite (db : DBName) (records : List CRec) (s : St) :
    List CRec × St × Bool :=
  let p := dictionaryForms db records s
  (p.2.1, writeLoop db p.1 p.2.2)

/-- `CDEDatabase.update` delegates to `CDEDatabase.write` verbatim. -/
def dbUpdate (db : DBName) (records : List CRec) (s : St) :
    List CRec × St × Bool :=
  dbWrite db records s

/-- `CDEDatabase.delete` delegates to `coder.delete`. -/
def dbDelete (db : DBName) (t : RType) (ids : List Nat) (s : St) : St × Bool :=
  coderDelete db t ids s

/-- Truthiness of a stored value (`if value:` on a nested-list field):
None and the empty list are falsy.  An integer id or a scalar under a
declared list field cannot be produced by `dictionary_form` and is never
reached under the well-typedness hypotheses used below. -/
def DVal.truthy : DVal → Bool
  | .null => false
  | .idList ns => !ns.isEmpty
  | .idv _ => false
  | .val _ => false

/-- The stored id list of a value (`for sub_id in value:`). -/
def DVal.idsOf : DVal → List Nat
  | .idList ns => ns
  | _ => []

/-- `CDEDatabase.create_record`, with explicit fuel: the source recursion
re-fetches referenced rows from the store and is unbounded on cyclic store
data.  A `none` row yields `None`.  Otherwise a fresh record of the type
is built and each row entry is dispatched on the declared kind of its key:
a single nested field fetches the sub-row by the stored id and recurses
(an unresolved reference leaves the field unset, as assigning Python None
does); a list field, when its value is truthy, fetches and recurses per
stored id, keeps the sub-records that resolve, and assigns the list only
when non-empty; a scalar entry is assigned directly.  The `_id` entry sets
the identifier.  (A key that is not a declared field of the type raises
KeyError in the source; rows written by `dictionary_form` only hold
declared keys, and every theorem below stays inside that; the embedding
skips such keys.) -/
def createRecord (decl : Decl) (db : DBName) (s : St) :
    Nat → RType → Option Row → Option CRec
  | _, _, none => none
  | 0, _, some _ => none
  | fuel + 1, t, some row =>
      let comps : List (FName × Value) × NFlds :=
        row.flds.foldr
          (fun p acc =>
            match decl t p.1 with
            | some .scalar =>
                match p.2 with
                | .val v => ((p.1, v) :: acc.1, acc.2)
                | _ => acc
            | some (.nested u) =>
                let subRow :=
                  match p.2 with
                  | .idv n => jsonRecordLookup db u n s
                  | _ => none
                match createRecord decl db s fuel u subRow with
                | some sub => (acc.1, .single p.1 sub acc.2)
                | none => acc
            | some (.nestedList u) =>
                if p.2.truthy then
                  match p.2.idsOf.filterMap
                      (fun n => createRecord decl db s fuel u (jsonRecordLookup db u n s)) with
                  | [] => acc
                  | m :: ms => (acc.1, .list p.1 (RecL.ofList (m :: ms)) acc.2)
                else acc
            | none => acc)
          ([], .nil)
      some (.mk t (some row.id) comps.1 comps.2)

/-- `CDEDatabase.record`: fetch the row by type and id through the coder
and reconstruct it with `create_record`. -/
def dbRecord (decl : Decl) (db : DBName) (s : St) (fuel : Nat) (t : RType)
    (i : Nat) : Option CRec :=
  createRecord decl db s fuel t (jsonRecordLookup db t i s)

/-- The processing of one row entry by `createRecord` at a given fuel,
split out so that theorems can speak about it; `createRecord` at positive
fuel is definitionally a fold of this step (see `createRecord_succ`). -/
def bStep (decl : Decl) (db : DBName) (s : St) (fuel : Nat) (t : RType)
    (p : FName × DVal) (acc : List (FName × Value) × NFlds) :
    List (FName × Value) × NFlds :=
  match decl t p.1 with
  | some .scalar =>
      match p.2 with
      | .val v => ((p.1, v) :: acc.1, acc.2)
      | _ => acc
  | some (.nested u) =>
      let subRow :=
        match p.2 with
        | .idv n => jsonRecordLookup db u n s
        | _ => none
      match createRecord decl db s fuel u subRow with
      | some sub => (acc.1, .single p.1 sub acc.2)
      | none => acc
  | some (.nestedList u) =>
      if p.2.truthy then
        match p.2.idsOf.filterMap
            (fun n => createRecord decl db s fuel u (jsonRecordLookup db u n s)) with
        | [] => acc
        | m :: ms => (acc.1, .list p.1 (RecL.ofList (m :: ms)) acc.2)
      else acc
  | none => acc

/-- The per-entry builder of `createRecord` at a given fuel over a row's
entry list. -/
def buildFlds (decl : Decl) (db : DBName) (s : St) (fuel : Nat) (t : RType)
    (flds : List (FName × DVal)) : List (FName × Value) × NFlds :=
  flds.foldr (bStep decl db s fuel t) ([], .nil)

/-- Values returned by N successive `next_id` calls, threading the backend
state. -/
def nextIdSeq (t : RType) (db : DBName) : St → Nat → List Nat
  | _, 0 => []
  | s, n + 1 =>
      let p := nextId t db s
      p.1 :: nextIdSeq t db p.2 n

/-- The effective counter of `next_id` for a type: the cached maximum when
present, otherwise what a scan of the database's ledger file would
produce.  `nextId` returns this plus one (`nextId_eq`). -/
def eff (db : DBName) (s : St) (t : RType) : Nat :=
  match s.maxIds t with
  | some v => v
  | none =>
      match s.ledgerF db t with
      | none => 0
      | some L => maxList L

/-- First occurrences of a row list by id, given ids already seen: the
rows that survive the taken-ids filter of `CDEDatabase.write`, in order. -/
def firstOccs : List Row → List Nat → List Row
  | [], _ => []
  | r :: rs, seen =>
      if seen.contains r.id then firstOccs rs seen
      else r :: firstOccs rs (seen ++ [r.id])

/-- Separator check on the comma flags of the record lines: every line but
the last ends in a comma and the last does not (vacuous for no lines). -/
def sepC : List Bool → Bool
  | [] => true
  | [b] => !b
  | b :: b2 :: bs => b && sepC (b2 :: bs)

/-- The separator invariant of a data file (spec section 4.3): the file
re-parses as one JSON-like object because, record lines holding exactly
one entry each, this is exactly the comma convention. -/
def sepOk (l : List JLine) : Bool := sepC (l.map JLine.comma)

/-- States of the file backend reachable from a fresh coder over an empty
directory by any sequence of add, update and delete operations (a failed
operation leaves its partial mutations, exactly as the source does). -/
inductive Reach : St → Prop where
  | init : Reach freshSt
  | add (db : DBName) (batch : List (RType × List Row)) (s : St) :
      Reach s → Reach (coderAdd db batch s)
  | update (db : DBName) (batch : List (RType × List Row)) (s : St) :
      Reach s → Reach (coderUpdate db batch s).1
  | del (db : DBName) (t : RType) (ids : List Nat) (s : St) :
      Reach s → Reach (coderDelete db t ids s).1

mutual
/-- Identifiers carried by the nodes of a given type, listed in the order
in which `dictionary_form` emits the corresponding rows (children before
parent). -/
def CRec.idsOfType (u : RType) : CRec → List Nat
  | .mk t i sc nf => nf.idsOfType u ++ (if t = u then [(CRec.mk t i sc nf).idOr0] else [])
def NFlds.idsOfType (u : RType) : NFlds → List Nat
  | .nil => []
  | .single _ r rest => r.idsOfType u ++ rest.idsOfType u
  | .list _ rs rest => rs.idsOfType u ++ rest.idsOfType u
def RecL.idsOfType (u : RType) : RecL → List Nat
  | .rnil => []
  | .rcons r rest => r.idsOfType u ++ rest.idsOfType u
end

mutual
/-- The store resolves every reference of the tree: looking up any node's
type and id yields exactly that node's own row.  This is what holds after
a fresh `CDEDatabase.add` of the tree and is what `create_record` needs to
rebuild it. -/
def CRec.storeHas (db : DBName) (s : St) : CRec → Bool
  | .mk _ _ _ nf => nf.storeHas db s
def NFlds.storeHas (db : DBName) (s : St) : NFlds → Bool
  | .nil => true
  | .single _ r rest =>
      decide (jsonRecordLookup db r.rtype r.idOr0 s = some r.ownRow) &&
        r.storeHas db s && rest.storeHas db s
  | .list _ rs rest => rs.storeHas db s && rest.storeHas db s
def RecL.storeHas (db : DBName) (s : St) : RecL → Bool
  | .rnil => true
  | .rcons r rest =>
      decide (jsonRecordLookup db r.rtype r.idOr0 s = some r.ownRow) &&
        r.storeHas db s && rest.storeHas db s
end

/-! ### Properties of the identifier allocator -/

theorem nextId_eq (t : RType) (db : DBName) (s : St) :
    nextId t db s =
      (eff db s t + 1, { s with maxIds := fupd s.maxIds t (some (eff db s t + 1)) }) := rfl

theorem eff_nextId_same (t : RType) (db : DBName) (s : St) :
    eff db (nextId t db s).2 t = eff db s t + 1 := by
  simp [nextId_eq, eff, fupd]

theorem eff_nextId_other (t u : RType) (db db2 : DBName) (s : St) (h : u ≠ t) :
    eff db2 (nextId t db s).2 u = eff db2 s u := by
  simp [nextId_eq, eff, fupd, h]

theorem nextIdSeq_cached (t : RType) (db : DBName) :
    ∀ (n : Nat) (s : St) (m : Nat), s.maxIds t = some m →
      nextIdSeq t db s n = List.range' (m + 1) n := by
  intro n
  induction n with
  | zero => intro s m _; rfl
  | succ k ih =>
      intro s m h
      have h1 : nextId t db s = (m + 1, (nextId t db s).2) := by
        simp [nextId, h]
      have h2 : (nextId t db s).2.maxIds t = some (m + 1) := by
        simp [nextId, h, fupd]
      calc nextIdSeq t db s (k + 1)
          = (nextId t db s).1 :: nextIdSeq t db (nextId t db s).2 k := rfl
        _ = (m + 1) :: List.range' (m + 2) k := by
              rw [ih (nextId t db s).2 (m + 1) h2]
              simp [nextId, h]
        _ = List.range' (m + 1) (k + 1) := by rw [List.range'_succ]

/-- C5: on the file backend, N successive `next_id` calls for a type with
no cached counter and no ledger file return exactly 1, 2, ..., N in order
(and in particular pairwise distinct values). -/
theorem c5_next_id_fresh_counts_from_one (db : DBName) (t : RType) (N : Nat)
    (s : St) (h1 : s.maxIds t = none) (h2 : s.ledgerF db t = none) :
    nextIdSeq t db s N = List.range' 1 N ∧ (nextIdSeq t db s N).Nodup := by
  have key : nextIdSeq t db s N = List.range' 1 N := by
    cases N with
    | zero => rfl
    | succ k =>
        have h3 : (nextId t db s).2.maxIds t = some 1 := by
          simp [nextId, h1, h2, fupd, eff]
        calc nextIdSeq t db s (k + 1)
            = (nextId t db s).1 :: nextIdSeq t db (nextId t db s).2 k := rfl
          _ = 1 :: List.range' 2 k := by
                rw [nextIdSeq_cached t db k (nextId t db s).2 1 h3]
                simp [nextId, h1, h2, eff]
          _ = List.range' 1 (k + 1) := by rw [List.range'_succ]
  refine ⟨key, ?_⟩
  rw [key]
  exact List.nodup_range' 1 N

/-- C5 witness at N = 3 on a fresh state. -/
theorem c5_next_id_fresh_counts_from_one_witness :
    freshSt.maxIds "T" = none ∧ freshSt.ledgerF "db" "T" = none ∧
      nextIdSeq "T" "db" freshSt 3 = List.range' 1 3 ∧
      (nextIdSeq "T" "db" freshSt 3).Nodup :=
  ⟨rfl, rfl, c5_next_id_fresh_counts_from_one "db" "T" 3 freshSt rfl rfl⟩

/-- C10: the `_max_ids` cache of one coder instance is keyed by record
type only.  After a `next_id` call for a type against one database, a
`next_id` call for the same type against ANY database name returns the
successor, whatever that database's ledger file holds: the second call is
answered from the cache without reading the ledger. -/
theorem c10_next_id_cache_ignores_database (s : St) (t : RType)
    (db1 db2 : DBName) (L : Option (List Nat)) :
    (nextId t db2
        { (nextId t db1 s).2 with
            ledgerF := fupd2 (nextId t db1 s).2.ledgerF db2 t L }).1 =
      (nextId t db1 s).1 + 1 := by
  simp [nextId, eff, fupd]

/-! ### The ledger under deletion (claim C2) -/

theorem dval_digitChar (m : Nat) (h : m < 10) : dval (Nat.digitChar m) = m := by
  interval_cases m <;> decide

theorem toDigitsCore_acc (b : Nat) :
    ∀ (f n : Nat) (ds : List Char),
      Nat.toDigitsCore b f n ds = Nat.toDigitsCore b f n [] ++ ds := by
  intro f
  induction f with
  | zero => intro n ds; rfl
  | succ f ih =>
      intro n ds
      rw [Nat.toDigitsCore]
      by_cases h : n / b = 0
      · rw [if_pos h]
        conv_rhs => rw [Nat.toDigitsCore]
        rw [if_pos h]
        rfl
      · rw [if_neg h]
        conv_rhs => rw [Nat.toDigitsCore]
        rw [if_neg h]
        rw [ih (n / b) ((n % b).digitChar :: ds), ih (n / b) [(n % b).digitChar]]
        simp

theorem parse_toDigitsCore :
    ∀ (f n : Nat), n < f → parseDigits (Nat.toDigitsCore 10 f n []) = n := by
  intro f
  induction f with
  | zero => intro n hn; omega
  | succ f ih =>
      intro n hn
      rw [Nat.toDigitsCore]
      by_cases h : n / 10 = 0
      · rw [if_pos h]
        have hlt : n < 10 := by omega
        have hm : n % 10 = n := Nat.mod_eq_of_lt hlt
        rw [hm]
        show parseDigits [n.digitChar] = n
        rw [parseDigits]
        simp only [List.foldl_cons, List.foldl_nil]
        rw [dval_digitChar _ hlt]
        omega
      · rw [if_neg h]
        rw [toDigitsCore_acc]
        have hn2 : 0 < n := by
          by_contra hc
          push_neg at hc
          interval_cases n
          simp at h
        have hn' : n / 10 < f := by
          have := Nat.div_lt_self hn2 (by norm_num : 1 < 10)
          omega
        have hih := ih (n / 10) hn'
        rw [parseDigits] at hih ⊢
        rw [List.foldl_append, hih]
        simp only [List.foldl_cons, List.foldl_nil]
        rw [dval_digitChar _ (Nat.mod_lt _ (by norm_num))]
        omega

/-- The decimal rendering of a natural number (Python `str(id_)`, Lean
`toString`) is injective: distinct identifiers have distinct ledger
lines. -/
theorem natToString_inj (m n : Nat) (h : toString m = toString n) : m = n := by
  have hd : Nat.toDigits 10 m = Nat.toDigits 10 n := by
    have := congrArg String.data h
    simpa [toString, Nat.repr, List.asString] using this
  have h1 : parseDigits (Nat.toDigits 10 m) = m :=
    parse_toDigitsCore (m + 1) m (by omega)
  have h2 : parseDigits (Nat.toDigits 10 n) = n :=
    parse_toDigitsCore (n + 1) n (by omega)
  rw [← h1, ← h2, hd]

theorem contains_map_toString (i : Nat) (ids : List Nat) :
    ((ids.map (fun x => toString x)).contains (toString i)) = ids.contains i := by
  by_cases h : i ∈ ids
  · have : toString i ∈ ids.map (fun x => toString x) := List.mem_map.mpr ⟨i, h, rfl⟩
    simp [h, this]
  · have hni : toString i ∉ ids.map (fun x => toString x) := by
      intro hm
      obtain ⟨j, hj, hje⟩ := List.mem_map.mp hm
      exact h (natToString_inj j i hje ▸ hj)
    simp [h, hni]

/-- The string comparison of `PlainTextCoder.delete` is integer
filtering: a ledger line survives exactly when the identifier it spells
is not among the requested ids. -/
theorem ledgerFilter_eq (ids L : List Nat) :
    ledgerFilter ids L = L.filter (fun i => !ids.contains i) := by
  unfold ledgerFilter
  apply List.filter_congr
  intro i _
  rw [contains_map_toString]

/-- C2 as stated is refuted: identifier 1 is allocated by `next_id`,
written to the ledger by `add`, and then `delete` removes it from the
ledger file (`PlainTextCoder.delete` rewrites the ledger keeping only
lines outside the requested ids). -/
theorem c2_counterexample_delete_erases_ledger :
    (nextId "T" "d" freshSt).1 = 1 ∧
      ((coderAdd "d" [("T", [⟨1, []⟩])] (nextId "T" "d" freshSt).2).ledgerF "d" "T")
        = some [1] ∧
      ((coderDelete "d" "T" [1]
          (coderAdd "d" [("T", [⟨1, []⟩])] (nextId "T" "d" freshSt).2)).1.ledgerF "d" "T")
        = some [] := by
  refine ⟨rfl, by decide, by decide⟩

/-- C2 amended: the ledger file of a type contains every identifier ever
allocated for it EXCEPT those since passed to `delete`: a delete call with
a non-empty id list rewrites the ledger, keeping exactly the lines of the
identifiers outside the requested set, in their original order (the
source compares the decimal line against the decimal forms of the
requested ids; by injectivity of the decimal rendering this is integer
filtering). -/
theorem c2_amended_delete_filters_ledger (db : DBName) (t : RType)
    (ids : List Nat) (s : St) (L : List Nat)
    (hL : s.ledgerF db t = some L) (hids : ids ≠ []) :
    ((coderDelete db t ids s).1).ledgerF db t
      = some (L.filter (fun i => !ids.contains i)) := by
  rw [← ledgerFilter_eq]
  unfold coderDelete
  rw [if_neg hids, hL]
  dsimp only
  split
  · simp
  · simp

/-- C2 amended witness: deleting id 2 from a ledger holding 1, 2, 3
leaves exactly 1 and 3, in order. -/
theorem c2_amended_delete_filters_ledger_witness :
    (({ freshSt with
        ledgerF := fupd2 freshSt.ledgerF "d" "T" (some [1, 2, 3]) } : St).ledgerF "d" "T"
      = some [1, 2, 3]) ∧
    ((coderDelete "d" "T" [2]
        { freshSt with
            ledgerF := fupd2 freshSt.ledgerF "d" "T" (some [1, 2, 3]) }).1.ledgerF "d" "T")
      = some (([1, 2, 3] : List Nat).filter (fun i => !([2] : List Nat).contains i)) :=
  ⟨by decide,
   c2_amended_delete_filters_ledger "d" "T" [2] _ [1, 2, 3] (by decide) (by decide)⟩

/-! ### Classification in CDEDatabase.write (claims C4 and C9) -/

theorem classifyRows_eq (contains : Nat → Bool) :
    ∀ (rows : List Row) (taken : List Nat),
      classifyRows contains rows taken =
        ((firstOccs rows taken).filter (fun r => contains r.id),
         (firstOccs rows taken).filter (fun r => !contains r.id)) := by
  intro rows
  induction rows with
  | nil => intro taken; rfl
  | cons r rs ih =>
      intro taken
      by_cases hc : contains r.id
      · by_cases ht : r.id ∈ taken
        · simp [classifyRows, firstOccs, hc, ht, ih]
        · simp [classifyRows, firstOccs, hc, ht, ih]
      · by_cases ht : r.id ∈ taken
        · simp [classifyRows, firstOccs, hc, ht, ih]
        · simp [classifyRows, firstOccs, hc, ht, ih]

theorem nodupB_iff (l : List FName) : nodupB l = true ↔ l.Nodup := by
  induction l with
  | nil => simp [nodupB]
  | cons a as ih => simp [nodupB, ih, List.nodup_cons]

theorem nodupB_append_fresh (l : List FName) (t : FName)
    (h1 : nodupB l = true) (h2 : l.contains t = false) :
    nodupB (l ++ [t]) = true := by
  rw [nodupB_iff] at h1 ⊢
  have ht : t ∉ l := by simpa using h2
  simp [List.nodup_append, h1, fun (h : t ∈ l) => ht h]

theorem gInsert_keys (g : List (RType × List Row)) (t : RType) (row : Row) :
    ((gInsert g t row).map Prod.fst) =
      if (g.map Prod.fst).contains t then g.map Prod.fst
      else g.map Prod.fst ++ [t] := by
  by_cases h : (g.map Prod.fst).contains t
  · simp only [gInsert, h, if_true]
    rw [List.map_map]
    congr 1
    funext p
    by_cases hp : p.1 = t
    · simp [hp, Function.comp]
    · simp [hp, Function.comp]
  · unfold gInsert
    rw [if_neg h, if_neg h]
    simp

theorem gInsert_keysNodup (g : List (RType × List Row)) (t : RType) (row : Row)
    (h : nodupB (g.map Prod.fst) = true) :
    nodupB ((gInsert g t row).map Prod.fst) = true := by
  rw [gInsert_keys]
  by_cases hc : (g.map Prod.fst).contains t
  · rw [if_pos hc]; exact h
  · rw [if_neg hc]
    exact nodupB_append_fresh _ _ h (by simpa using hc)

theorem groupRows_go_keysNodup :
    ∀ (l : List (RType × Row)) (g : List (RType × List Row)),
      nodupB (g.map Prod.fst) = true →
      nodupB ((l.foldl (fun g q => gInsert g q.1 q.2) g).map Prod.fst) = true := by
  intro l
  induction l with
  | nil => intro g h; exact h
  | cons q qs ih =>
      intro g h
      exact ih _ (gInsert_keysNodup g q.1 q.2 h)

/-- C4: within one `CDEDatabase.write` call, every `(type, id)` pair of
the flattened batch is classified exactly once.  First, the per-type
classification loop sends exactly the first occurrence of each id to the
update list (when `contains_id` holds) or the add list (when it does not),
and every later occurrence of an id of that type to neither.  Second, the
grouped batch produced by `dictionary_forms` lists every record type once,
so no type's rows are classified twice. -/
theorem c4_write_classifies_each_id_once :
    (∀ (contains : Nat → Bool) (rows : List Row),
        classifyRows contains rows [] =
          ((firstOccs rows []).filter (fun r => contains r.id),
           (firstOccs rows []).filter (fun r => !contains r.id))) ∧
    (∀ (l : List (RType × Row)), nodupB ((groupRows l).map Prod.fst) = true) := by
  constructor
  · intro contains rows
    exact classifyRows_eq contains rows []
  · intro l
    exact groupRows_go_keysNodup l [] rfl

/-- C9: `CDEDatabase.update` is literally `CDEDatabase.write`, so the two
agree on every input; consequently a record whose identifier the backend
does not yet contain is classified into the add list by an update call
(inserted, not silently dropped). -/
theorem c9_update_delegates_to_write :
    (∀ (db : DBName) (records : List CRec) (s : St),
        dbUpdate db records s = dbWrite db records s) ∧
    (∀ (contains : Nat → Bool) (row : Row), contains row.id = false →
        classifyRows contains [row] [] = ([], [row])) := by
  constructor
  · intro db records s; rfl
  · intro contains row h
    simp [classifyRows, h]

/-- C9 witness: a concrete record row with id 1 that the backend does not
contain goes to the add list, and update equals write at a concrete
input. -/
theorem c9_update_delegates_to_write_witness :
    dbUpdate "d" [] freshSt = dbWrite "d" [] freshSt ∧
      classifyRows (fun _ => false) [⟨1, []⟩] [] = ([], [⟨1, []⟩]) :=
  ⟨c9_update_delegates_to_write.1 "d" [] freshSt,
   c9_update_delegates_to_write.2 (fun _ => false) ⟨1, []⟩ rfl⟩

/-! ### Empty nested-list fields in the flat row (claim C3) -/

theorem lookup_append_left {α β : Type} [BEq α] (a b : List (α × β)) (f : α)
    (v : β) (h : List.lookup f a = some v) : List.lookup f (a ++ b) = some v := by
  induction a with
  | nil => simp [List.lookup] at h
  | cons p ps ih =>
      rw [List.cons_append]
      rw [List.lookup] at h ⊢
      cases hk : f == p.1 with
      | true => rw [hk] at h; exact h
      | false => rw [hk] at h; exact ih h

theorem beq_false_of_ne {f g : FName} (hg : ¬g = f) : (f == g) = false := by
  cases hx : f == g
  · rfl
  · exact absurd ((by simpa using hx : f = g)) (fun hh => hg hh.symm)

theorem rowFlds_listAt_rnil :
    ∀ (nf : NFlds) (f : FName), nf.listAt f = some .rnil →
      List.lookup f nf.rowFlds = some DVal.null
  | .nil, f => by simp [NFlds.listAt]
  | .single g r rest, f => by
      intro h
      rw [NFlds.listAt] at h
      by_cases hg : g = f
      · rw [if_pos hg] at h; exact absurd h (by simp)
      · rw [if_neg hg] at h
        simp only [NFlds.rowFlds, List.lookup, beq_false_of_ne hg]
        exact rowFlds_listAt_rnil rest f h
  | .list g rs rest, f => by
      intro h
      rw [NFlds.listAt] at h
      by_cases hg : g = f
      · rw [if_pos hg] at h
        cases rs with
        | rnil =>
            subst hg
            simp [NFlds.rowFlds, List.lookup]
        | rcons a b => exact absurd h (by simp)
      · rw [if_neg hg] at h
        cases rs with
        | rnil =>
            simp only [NFlds.rowFlds, List.lookup, beq_false_of_ne hg]
            exact rowFlds_listAt_rnil rest f h
        | rcons a b =>
            simp only [NFlds.rowFlds, List.lookup, beq_false_of_ne hg]
            exact rowFlds_listAt_rnil rest f h

/-- C3 as stated is refuted: a record whose declared list field holds an
empty (non-null) list flattens to a row that CONTAINS the field, stored as
null (`dictionary_form[field_name] = None`), and that row differs from the
row of the same record with the field never set. -/
theorem c3_counterexample_empty_list_stored_as_null :
    (List.lookup "xs"
        (((dictionaryForm "d" (.mk "T" none [("a", "x")] (.list "xs" .rnil .nil))
              freshSt).1.headD ⟨"", ⟨0, []⟩⟩).2.flds) = some DVal.null) ∧
      ((dictionaryForm "d" (.mk "T" none [("a", "x")] (.list "xs" .rnil .nil))
            freshSt).1.headD ⟨"", ⟨0, []⟩⟩).2 ≠
        ((dictionaryForm "d" (.mk "T" none [("a", "x")] .nil)
            freshSt).1.headD ⟨"", ⟨0, []⟩⟩).2 := by
  refine ⟨by decide, by decide⟩

/-- C3 amended: a record whose declared nested-list field is present but
flattens to an empty identifier list does NOT lose the field in its flat
row; the field is stored with the value null.  (The reconstruction path
treats null like an unset field, so the collapse the claim describes
happens on read, not in the flat row itself.) -/
theorem c3_amended_empty_list_field_is_null (r : CRec) (f : FName)
    (h : r.nested.listAt f = some .rnil) :
    List.lookup f r.ownRow.flds = some DVal.null := by
  cases r with
  | mk t i sc nf =>
      exact lookup_append_left _ _ _ _ (rowFlds_listAt_rnil nf f h)

/-- C3 amended witness: the concrete record with an empty list field. -/
theorem c3_amended_empty_list_field_is_null_witness :
    ((CRec.mk "T" (some 7) [("a", "x")] (.list "xs" .rnil .nil)).nested.listAt "xs"
        = some .rnil) ∧
      List.lookup "xs" (CRec.mk "T" (some 7) [("a", "x")] (.list "xs" .rnil .nil)).ownRow.flds
        = some DVal.null :=
  ⟨by decide,
   c3_amended_empty_list_field_is_null
     (CRec.mk "T" (some 7) [("a", "x")] (.list "xs" .rnil .nil)) "xs" (by decide)⟩

/-! ### The separator invariant of data files (claims C6 and C7) -/

theorem sepC_cons_ne (b : Bool) (l : List Bool) (h : l ≠ []) :
    sepC (b :: l) = (b && sepC l) := by
  cases l with
  | nil => exact absurd rfl h
  | cons c cs => rfl

theorem sepC_append (as bs : List Bool) (h1 : as.all (fun b => b) = true)
    (h2 : sepC bs = true) (h3 : bs ≠ []) : sepC (as ++ bs) = true := by
  induction as with
  | nil => exact h2
  | cons a as ih =>
      simp only [List.all_cons, Bool.and_eq_true] at h1
      rw [List.cons_append,
        sepC_cons_ne a (as ++ bs) (by simp [h3]),
        h1.1, ih h1.2]
      rfl

theorem newLines_rows (rows : List Row) :
    (newLines rows).map JLine.row = rows := by
  induction rows with
  | nil => rfl
  | cons r rs ih =>
      cases rs with
      | nil => rfl
      | cons r2 rs2 => simpa [newLines] using ih

theorem newLines_ne_nil (rows : List Row) (h : rows ≠ []) : newLines rows ≠ [] := by
  cases rows with
  | nil => exact absurd rfl h
  | cons r rs => cases rs <;> simp [newLines]

theorem newLines_sepC (rows : List Row) :
    sepC ((newLines rows).map JLine.comma) = true := by
  induction rows with
  | nil => rfl
  | cons r rs ih =>
      cases rs with
      | nil => rfl
      | cons r2 rs2 =>
          have hne : (newLines (r2 :: rs2)).map JLine.comma ≠ [] := by
            simpa using newLines_ne_nil (r2 :: rs2) (by simp)
          rw [newLines, List.map_cons, sepC_cons_ne _ _ hne]
          simpa using ih

theorem markLastComma_all (l : List JLine) (h : sepC (l.map JLine.comma) = true) :
    ((markLastComma l).map JLine.comma).all (fun b => b) = true := by
  induction l with
  | nil => rfl
  | cons a as ih =>
      cases as with
      | nil => rfl
      | cons a2 as2 =>
          rw [List.map_cons, sepC_cons_ne _ _ (by simp)] at h
          simp only [Bool.and_eq_true] at h
          rw [markLastComma, List.map_cons, List.all_cons]
          exact by simp [h.1, ih h.2]

theorem jAdd_sepOk (rows : List Row) (f : JFile) (h1 : sepOk f.lines = true)
    (h2 : rows ≠ []) : sepOk (jAdd rows f).lines = true := by
  unfold sepOk jAdd
  rw [List.map_append]
  exact sepC_append _ _ (markLastComma_all f.lines h1) (newLines_sepC rows)
    (by simpa using newLines_ne_nil rows h2)

theorem updScan_commas (m : List (Nat × Row)) (ls : List JLine) :
    (updScan m ls).map JLine.comma = ls.map JLine.comma := by
  induction ls generalizing m with
  | nil => rfl
  | cons l ls ih =>
      rw [updScan]
      cases mapLookup m l.row.id with
      | none => simpa using ih m
      | some r => simpa using ih (mapErase m l.row.id)

theorem delScan_ne_nil (ids : List Nat) :
    ∀ (ls : List JLine) (p : Row), delScan ids ls (some p) ≠ [] := by
  intro ls
  induction ls with
  | nil => intro p; simp [delScan]
  | cons l ls ih =>
      intro p
      by_cases hd : l.row.id ∈ ids
      · simpa [delScan, hd] using ih p
      · simp [delScan, hd]

theorem delScan_sepC (ids : List Nat) :
    ∀ (ls : List JLine) (prev : Option Row),
      sepC ((delScan ids ls prev).map JLine.comma) = true := by
  intro ls
  induction ls with
  | nil => intro prev; cases prev <;> rfl
  | cons l ls ih =>
      intro prev
      by_cases hd : l.row.id ∈ ids
      · simpa [delScan, hd] using ih prev
      · cases prev with
        | none => simpa [delScan, hd] using ih (some l.row)
        | some p =>
            have hne : (delScan ids ls (some l.row)).map JLine.comma ≠ [] := by
              simpa using delScan_ne_nil ids ls l.row
            rw [show delScan ids (l :: ls) (some p)
                  = ⟨p, true⟩ :: delScan ids ls (some l.row) by
                simp [delScan, hd]]
            rw [List.map_cons, sepC_cons_ne _ _ hne]
            simpa using ih (some l.row)

theorem delScan_rows (ids : List Nat) :
    ∀ (ls : List JLine) (prev : Option Row),
      (delScan ids ls prev).map JLine.row =
        prev.toList ++ (ls.map JLine.row).filter (fun r => !ids.contains r.id) := by
  intro ls
  induction ls with
  | nil => intro prev; cases prev <;> simp [delScan]
  | cons l ls ih =>
      intro prev
      by_cases hd : l.row.id ∈ ids
      · rw [show delScan ids (l :: ls) prev = delScan ids ls prev by
            simp [delScan, hd]]
        rw [ih prev]
        simp [hd]
      · cases prev with
        | none =>
            rw [show delScan ids (l :: ls) none = delScan ids ls (some l.row) by
                simp [delScan, hd]]
            rw [ih (some l.row)]
            simp [hd]
        | some p =>
            rw [show delScan ids (l :: ls) (some p)
                  = ⟨p, true⟩ :: delScan ids ls (some l.row) by
                simp [delScan, hd]]
            simp only [List.map_cons]
            rw [ih (some l.row)]
            simp [hd]

/-- The separator invariant for every data file of a backend state. -/
def sepInv (s : St) : Prop :=
  ∀ (db : DBName) (t : RType), sepOk (((s.dataF db t).getD jInit).lines) = true

theorem sepInv_fresh : sepInv freshSt := by
  intro db t; rfl

theorem sepInv_ledgerAdd (db : DBName) (t : RType) (rows : List Row) (s : St)
    (h : sepInv s) : sepInv (ledgerAdd db t rows s) := h

theorem sepInv_ledger_fold (db : DBName) (batch : List (RType × List Row)) :
    ∀ (s : St), sepInv s → sepInv (batch.foldl (fun s p => ledgerAdd db p.1 p.2 s) s) := by
  induction batch with
  | nil => intro s h; exact h
  | cons p ps ih => intro s h; exact ih _ (sepInv_ledgerAdd db p.1 p.2 s h)

theorem sepInv_dataF_update (s : St) (db : DBName) (t : RType) (f : JFile)
    (hs : sepInv s) (hf : sepOk f.lines = true) :
    sepInv { s with dataF := fupd2 s.dataF db t (some f) } := by
  intro d u
  by_cases h : d = db ∧ u = t
  · obtain ⟨h1, h2⟩ := h
    subst h1; subst h2
    simpa [fupd2_same] using hf
  · have := hs d u
    simpa [fupd2_other _ _ _ _ _ _ h] using this

theorem sepInv_coderAdd (db : DBName) (batch : List (RType × List Row)) (s : St)
    (h : sepInv s) : sepInv (coderAdd db batch s) := by
  unfold coderAdd
  have h1 := sepInv_ledger_fold db batch s h
  revert h1
  generalize batch.foldl (fun s p => ledgerAdd db p.1 p.2 s) s = s1
  intro h1
  induction batch generalizing s1 with
  | nil => exact h1
  | cons p ps ih =>
      rw [List.foldl_cons]
      by_cases hp : p.2 = []
      · rw [if_pos hp]
        exact ih s1 h1
      · rw [if_neg hp]
        refine ih _ (sepInv_dataF_update s1 db p.1 _ h1 ?_)
        exact jAdd_sepOk p.2 _ (h1 db p.1) hp

theorem sepInv_updStep (db : DBName) (t : RType) (rows : List Row) (s : St)
    (h : sepInv s) : sepInv (updStep db t rows s).1 := by
  unfold updStep
  by_cases hm : buildMap rows = []
  · rw [if_pos hm]; exact h
  · rw [if_neg hm]
    by_cases hl : ((s.dataF db t).getD jInit).lines = []
    · rw [if_pos hl]
      exact sepInv_dataF_update s db t _ h (h db t)
    · rw [if_neg hl]
      refine sepInv_dataF_update _ db t _ (sepInv_dataF_update s db t _ h (h db t)) ?_
      show sepOk (updScan (buildMap rows) ((s.dataF db t).getD jInit).lines) = true
      unfold sepOk
      rw [updScan_commas]
      exact h db t

theorem sepInv_coderUpdate (db : DBName) (batch : List (RType × List Row)) :
    ∀ (s : St), sepInv s → sepInv (coderUpdate db batch s).1 := by
  induction batch with
  | nil => intro s h; exact h
  | cons p ps ih =>
      intro s h
      rw [coderUpdate]
      have h1 := sepInv_updStep db p.1 p.2 s h
      cases hu : updStep db p.1 p.2 s with
      | mk s1 ok =>
          rw [hu] at h1
          cases ok with
          | true => exact ih s1 h1
          | false => exact h1

theorem sepInv_coderDelete (db : DBName) (t : RType) (ids : List Nat) (s : St)
    (h : sepInv s) : sepInv (coderDelete db t ids s).1 := by
  unfold coderDelete
  by_cases hi : ids = []
  · rw [if_pos hi]; exact h
  · rw [if_neg hi]
    cases hL : s.ledgerF db t with
    | none => exact h
    | some L =>
        have h1 : sepInv ({ s with
            ledgerF := fupd2 s.ledgerF db t (some (ledgerFilter ids L)) } : St) := h
        dsimp only
        by_cases hl : ((s.dataF db t).getD jInit).lines = []
        · rw [if_pos hl]
          exact sepInv_dataF_update _ db t _ h1 (h1 db t)
        · rw [if_neg hl]
          refine sepInv_dataF_update _ db t _ (sepInv_dataF_update _ db t _ h1 (h1 db t)) ?_
          show sepOk (delScan ids ((s.dataF db t).getD jInit).lines none) = true
          unfold sepOk
          exact delScan_sepC ids _ none

/-- C6: every state of the file backend reachable by any sequence of add,
update and delete operations keeps every data file in the shape of one
JSON-like object: each record line but the last ends with the comma
separator and the last record line carries none. -/
theorem c6_separator_invariant (s : St) (h : Reach s) :
    ∀ (db : DBName) (t : RType), sepOk (((s.dataF db t).getD jInit).lines) = true := by
  induction h with
  | init => exact sepInv_fresh
  | add db batch s _ ih => exact sepInv_coderAdd db batch s ih
  | update db batch s _ ih => exact sepInv_coderUpdate db batch s ih
  | del db t ids s _ ih => exact sepInv_coderDelete db t ids s ih

/-- C6 witness: a concrete reachable state (one add of two rows followed
by a delete of the first) whose data file satisfies the separator
check. -/
theorem c6_separator_invariant_witness :
    Reach ((coderDelete "d" "T" [1]
        (coderAdd "d" [("T", [⟨1, []⟩, ⟨2, []⟩])] freshSt)).1) ∧
      sepOk ((((coderDelete "d" "T" [1]
          (coderAdd "d" [("T", [⟨1, []⟩, ⟨2, []⟩])] freshSt)).1.dataF "d" "T").getD
            jInit).lines) = true :=
  ⟨Reach.del "d" "T" [1] _ (Reach.add "d" [("T", [⟨1, []⟩, ⟨2, []⟩])] freshSt Reach.init),
   c6_separator_invariant _
     (Reach.del "d" "T" [1] _ (Reach.add "d" [("T", [⟨1, []⟩, ⟨2, []⟩])] freshSt Reach.init))
     "d" "T"⟩

/-- C7 as stated is refuted in its empty-file case: after an add and a
delete of every record, the type's data file holds no records; a further
delete with an id that has no record line then raises (the blank line of
the empty file makes `line[-2]` fail with IndexError) instead of
completing as a no-op. -/
theorem c7_counterexample_delete_on_empty_file_raises :
    (coderDelete "d" "T" [1] (coderAdd "d" [("T", [⟨1, []⟩])] freshSt)).2 = true ∧
      (coderDelete "d" "T" [2]
          (coderDelete "d" "T" [1] (coderAdd "d" [("T", [⟨1, []⟩])] freshSt)).1).2
        = false := by
  refine ⟨by decide, by decide⟩

/-- C7 amended: a delete call with a non-empty id list completes without
error PROVIDED the type's ledger file exists and its data file contains at
least one record line; then every stored row whose identifier is not among
the requested ids is preserved, in order, and requested ids without a
record line are no-ops (the result is exactly the filter of the stored
rows).  On a data file with no record lines the call raises instead. -/
theorem c7_amended_delete_preserves_unrequested_rows (db : DBName) (t : RType)
    (ids : List Nat) (s : St) (L : List Nat) (f : JFile)
    (hL : s.ledgerF db t = some L) (hf : s.dataF db t = some f)
    (hne : f.lines ≠ []) (hids : ids ≠ []) :
    (coderDelete db t ids s).2 = true ∧
      ∃ f2 : JFile, ((coderDelete db t ids s).1).dataF db t = some f2 ∧
        f2.lines.map JLine.row =
          (f.lines.map JLine.row).filter (fun r => !ids.contains r.id) := by
  unfold coderDelete
  rw [if_neg hids, hL]
  dsimp only
  rw [hf]
  simp only [Option.getD_some]
  rw [if_neg hne]
  refine ⟨rfl, ⟨⟨delScan ids f.lines none⟩, ?_, ?_⟩⟩
  · simp [fupd2_same]
  · simpa using delScan_rows ids f.lines none

/-- C7 amended witness: delete id 9 (absent) and id 1 (present) from a
two-record file; the remaining row is exactly the one with id 2. -/
theorem c7_amended_delete_preserves_unrequested_rows_witness :
    (coderDelete "d" "T" [9, 1]
        { freshSt with
            dataF := fupd2 freshSt.dataF "d" "T"
              (some ⟨[⟨⟨1, []⟩, true⟩, ⟨⟨2, []⟩, false⟩]⟩),
            ledgerF := fupd2 freshSt.ledgerF "d" "T" (some [1, 2]) }).2 = true ∧
      ∃ f2 : JFile,
        ((coderDelete "d" "T" [9, 1]
            { freshSt with
                dataF := fupd2 freshSt.dataF "d" "T"
                  (some ⟨[⟨⟨1, []⟩, true⟩, ⟨⟨2, []⟩, false⟩]⟩),
                ledgerF := fupd2 freshSt.ledgerF "d" "T" (some [1, 2]) }).1).dataF "d" "T"
          = some f2 ∧
        f2.lines.map JLine.row =
          (([⟨⟨1, []⟩, true⟩, ⟨⟨2, []⟩, false⟩] : List JLine).map JLine.row).filter
            (fun r => !([9, 1] : List Nat).contains r.id) :=
  c7_amended_delete_preserves_unrequested_rows "d" "T" [9, 1] _ [1, 2]
    ⟨[⟨⟨1, []⟩, true⟩, ⟨⟨2, []⟩, false⟩]⟩ (by decide) (by decide) (by decide) (by decide)

/-! ### Reconstruction of rows (claims C8 and C1) -/

theorem createRecord_none (decl : Decl) (db : DBName) (s : St) (fuel : Nat)
    (t : RType) : createRecord decl db s fuel t none = none := by
  cases fuel <;> rfl

theorem createRecord_succ (decl : Decl) (db : DBName) (s : St) (fuel : Nat)
    (t : RType) (row : Row) :
    createRecord decl db s (fuel + 1) t (some row) =
      some (.mk t (some row.id) (buildFlds decl db s fuel t row.flds).1
        (buildFlds decl db s fuel t row.flds).2) := rfl

theorem bStep_shift (decl : Decl) (db : DBName) (s : St) (fuel : Nat)
    (t : RType) (p : FName × DVal) (B a : List (FName × Value) × NFlds) :
    bStep decl db s fuel t p (B.1 ++ a.1, NFlds.appendNF B.2 a.2)
      = ((bStep decl db s fuel t p B).1 ++ a.1,
         NFlds.appendNF (bStep decl db s fuel t p B).2 a.2) := by
  cases hd : decl t p.1 with
  | none => simp [bStep, hd]
  | some k =>
      cases k with
      | scalar => cases hp : p.2 <;> simp [bStep, hd, hp]
      | nested u =>
          cases hp : p.2 with
          | idv n =>
              cases hcr : createRecord decl db s fuel u (jsonRecordLookup db u n s) with
              | none => simp [bStep, hd, hp, hcr]
              | some sub => simp [bStep, hd, hp, hcr, NFlds.appendNF]
          | null => simp [bStep, hd, hp, createRecord_none]
          | idList ns => simp [bStep, hd, hp, createRecord_none]
          | val v => simp [bStep, hd, hp, createRecord_none]
      | nestedList u =>
          cases hp : p.2 with
          | null => simp [bStep, hd, hp, DVal.truthy]
          | idv n => simp [bStep, hd, hp, DVal.truthy]
          | val v => simp [bStep, hd, hp, DVal.truthy]
          | idList ns =>
              cases ns with
              | nil => simp [bStep, hd, hp, DVal.truthy]
              | cons n ns2 =>
                  cases hfm : (n :: ns2).filterMap
                      (fun n => createRecord decl db s fuel u (jsonRecordLookup db u n s)) with
                  | nil => simp [bStep, hd, hp, DVal.truthy, DVal.idsOf, hfm]
                  | cons m ms =>
                      simp [bStep, hd, hp, DVal.truthy, DVal.idsOf, hfm, NFlds.appendNF]

theorem buildFlds_go (decl : Decl) (db : DBName) (s : St) (fuel : Nat) (t : RType) :
    ∀ (flds : List (FName × DVal)) (acc : List (FName × Value) × NFlds),
      flds.foldr (bStep decl db s fuel t) acc
        = ((buildFlds decl db s fuel t flds).1 ++ acc.1,
           NFlds.appendNF (buildFlds decl db s fuel t flds).2 acc.2) := by
  intro flds
  induction flds with
  | nil => intro acc; simp [buildFlds, NFlds.appendNF]
  | cons p ps ih =>
      intro acc
      rw [List.foldr_cons, ih acc, bStep_shift]
      rfl

theorem buildFlds_append (decl : Decl) (db : DBName) (s : St) (fuel : Nat)
    (t : RType) (a b : List (FName × DVal)) :
    buildFlds decl db s fuel t (a ++ b)
      = ((buildFlds decl db s fuel t a).1 ++ (buildFlds decl db s fuel t b).1,
         NFlds.appendNF (buildFlds decl db s fuel t a).2
           (buildFlds decl db s fuel t b).2) := by
  show (a ++ b).foldr (bStep decl db s fuel t) ([], .nil) = _
  rw [List.foldr_append]
  exact buildFlds_go decl db s fuel t a _

theorem bStep_names (decl : Decl) (db : DBName) (s : St) (fuel : Nat)
    (t : RType) (p : FName × DVal) (B : List (FName × Value) × NFlds) :
    ∀ g ∈ ((bStep decl db s fuel t p B).2).names, g = p.1 ∨ g ∈ B.2.names := by
  intro g hg
  cases hd : decl t p.1 with
  | none => right; simpa [bStep, hd] using hg
  | some k =>
      cases k with
      | scalar =>
          right
          cases hp : p.2 <;> simpa [bStep, hd, hp] using hg
      | nested u =>
          cases hp : p.2 with
          | idv n =>
              cases hcr : createRecord decl db s fuel u (jsonRecordLookup db u n s) with
              | none => right; simpa [bStep, hd, hp, hcr] using hg
              | some sub =>
                  rw [bStep] at hg
                  simp only [hd, hp, hcr] at hg
                  simpa [NFlds.names] using hg
          | null => right; simpa [bStep, hd, hp, createRecord_none] using hg
          | idList ns => right; simpa [bStep, hd, hp, createRecord_none] using hg
          | val v => right; simpa [bStep, hd, hp, createRecord_none] using hg
      | nestedList u =>
          cases hp : p.2 with
          | null => right; simpa [bStep, hd, hp, DVal.truthy] using hg
          | idv n => right; simpa [bStep, hd, hp, DVal.truthy] using hg
          | val v => right; simpa [bStep, hd, hp, DVal.truthy] using hg
          | idList ns =>
              cases ns with
              | nil => right; simpa [bStep, hd, hp, DVal.truthy] using hg
              | cons n ns2 =>
                  cases hfm : (n :: ns2).filterMap
                      (fun n => createRecord decl db s fuel u (jsonRecordLookup db u n s)) with
                  | nil =>
                      right
                      simpa [bStep, hd, hp, DVal.truthy, DVal.idsOf, hfm] using hg
                  | cons m ms =>
                      rw [bStep] at hg
                      simp only [hd, hp, DVal.truthy, DVal.idsOf, hfm] at hg
                      simpa [NFlds.names] using hg

theorem buildFlds_names (decl : Decl) (db : DBName) (s : St) (fuel : Nat)
    (t : RType) : ∀ (flds : List (FName × DVal)) (g : FName),
      g ∈ (buildFlds decl db s fuel t flds).2.names → g ∈ flds.map Prod.fst := by
  intro flds
  induction flds with
  | nil => intro g hg; simp [buildFlds, NFlds.names] at hg
  | cons p ps ih =>
      intro g hg
      have : g = p.1 ∨ g ∈ (buildFlds decl db s fuel t ps).2.names :=
        bStep_names decl db s fuel t p (buildFlds decl db s fuel t ps) g hg
      rcases this with h | h
      · simp [h]
      · simp [ih g h]

theorem findSub_not_names :
    ∀ (nf : NFlds) (f : FName), f ∉ nf.names → nf.findSub f = none
  | .nil, f => by intro _; rfl
  | .single g r rest, f => by
      intro h
      simp only [NFlds.names, List.mem_cons] at h
      push_neg at h
      rw [NFlds.findSub, if_neg (fun hh => h.1 hh.symm)]
      exact findSub_not_names rest f h.2
  | .list g rs rest, f => by
      intro h
      simp only [NFlds.names, List.mem_cons] at h
      push_neg at h
      rw [NFlds.findSub]
      exact findSub_not_names rest f h.2

theorem findList_not_names :
    ∀ (nf : NFlds) (f : FName), f ∉ nf.names → nf.findList f = none
  | .nil, f => by intro _; rfl
  | .single g r rest, f => by
      intro h
      simp only [NFlds.names, List.mem_cons] at h
      push_neg at h
      rw [NFlds.findList]
      exact findList_not_names rest f h.2
  | .list g rs rest, f => by
      intro h
      simp only [NFlds.names, List.mem_cons] at h
      push_neg at h
      rw [NFlds.findList, if_neg (fun hh => h.1 hh.symm)]
      exact findList_not_names rest f h.2

theorem findSub_appendNF_not_left :
    ∀ (x y : NFlds) (f : FName), f ∉ x.names →
      (x.appendNF y).findSub f = y.findSub f
  | .nil, y, f => by intro _; rfl
  | .single g r rest, y, f => by
      intro h
      simp only [NFlds.names, List.mem_cons] at h
      push_neg at h
      rw [NFlds.appendNF, NFlds.findSub, if_neg (fun hh => h.1 hh.symm)]
      exact findSub_appendNF_not_left rest y f h.2
  | .list g rs rest, y, f => by
      intro h
      simp only [NFlds.names, List.mem_cons] at h
      push_neg at h
      rw [NFlds.appendNF, NFlds.findSub]
      exact findSub_appendNF_not_left rest y f h.2

theorem findList_appendNF_not_left :
    ∀ (x y : NFlds) (f : FName), f ∉ x.names →
      (x.appendNF y).findList f = y.findList f
  | .nil, y, f => by intro _; rfl
  | .single g r rest, y, f => by
      intro h
      simp only [NFlds.names, List.mem_cons] at h
      push_neg at h
      rw [NFlds.appendNF, NFlds.findList]
      exact findList_appendNF_not_left rest y f h.2
  | .list g rs rest, y, f => by
      intro h
      simp only [NFlds.names, List.mem_cons] at h
      push_neg at h
      rw [NFlds.appendNF, NFlds.findList, if_neg (fun hh => h.1 hh.symm)]
      exact findList_appendNF_not_left rest y f h.2

/-- C8: reconstructing a row whose declared single nested field stores an
identifier with no matching row in the store leaves that sub-field absent
(`create_record` of the missing row is None, and assigning None leaves the
field unset); and for a declared nested-list field, each stored identifier
is fetched and rebuilt in stored order, elements that resolve to absent
being dropped (`filterMap`), the field staying unset when nothing
survives.  The field occurs once in the row, as any row produced from a
Python dictionary does. -/
theorem c8_dangling_references_tolerated (decl : Decl) (db : DBName) (s : St)
    (fuel : Nat) :
    (∀ (t u : RType) (f : FName) (v i : Nat) (fl1 fl2 : List (FName × DVal)),
        decl t f = some (.nested u) →
        jsonRecordLookup db u v s = none →
        f ∉ fl1.map Prod.fst → f ∉ fl2.map Prod.fst →
        ∃ m, createRecord decl db s (fuel + 1) t (some ⟨i, fl1 ++ (f, .idv v) :: fl2⟩)
            = some m ∧ m.nested.findSub f = none) ∧
    (∀ (t w : RType) (g : FName) (ns : List Nat) (i : Nat)
        (gl1 gl2 : List (FName × DVal)),
        decl t g = some (.nestedList w) →
        g ∉ gl1.map Prod.fst → g ∉ gl2.map Prod.fst →
        ∃ m, createRecord decl db s (fuel + 1) t (some ⟨i, gl1 ++ (g, .idList ns) :: gl2⟩)
            = some m ∧
          m.nested.findList g =
            (match ns.filterMap
                (fun n => createRecord decl db s fuel w (jsonRecordLookup db w n s)) with
             | [] => none
             | m2 :: ms => some (RecL.ofList (m2 :: ms)))) := by
  constructor
  · intro t u f v i fl1 fl2 hdecl hlook h1 h2
    refine ⟨_, createRecord_succ decl db s fuel t ⟨i, fl1 ++ (f, .idv v) :: fl2⟩, ?_⟩
    show ((buildFlds decl db s fuel t (fl1 ++ (f, .idv v) :: fl2)).2).findSub f = none
    rw [buildFlds_append]
    have hmid : buildFlds decl db s fuel t ((f, .idv v) :: fl2)
        = buildFlds decl db s fuel t fl2 := by
      show (((f, .idv v) :: fl2).foldr (bStep decl db s fuel t) ([], .nil)) = _
      rw [List.foldr_cons]
      show bStep decl db s fuel t (f, .idv v) (buildFlds decl db s fuel t fl2) = _
      simp [bStep, hdecl, hlook, createRecord_none]
    rw [findSub_appendNF_not_left _ _ f
        (fun hm => h1 (buildFlds_names decl db s fuel t fl1 f hm))]
    rw [hmid]
    exact findSub_not_names _ f
      (fun hm => h2 (buildFlds_names decl db s fuel t fl2 f hm))
  · intro t w g ns i gl1 gl2 hdecl h1 h2
    refine ⟨_, createRecord_succ decl db s fuel t ⟨i, gl1 ++ (g, .idList ns) :: gl2⟩, ?_⟩
    show ((buildFlds decl db s fuel t (gl1 ++ (g, .idList ns) :: gl2)).2).findList g
        = _
    rw [buildFlds_append]
    rw [findList_appendNF_not_left _ _ g
        (fun hm => h1 (buildFlds_names decl db s fuel t gl1 g hm))]
    have hcons : buildFlds decl db s fuel t ((g, .idList ns) :: gl2)
        = bStep decl db s fuel t (g, .idList ns) (buildFlds decl db s fuel t gl2) := by
      show (((g, .idList ns) :: gl2).foldr (bStep decl db s fuel t) ([], .nil)) = _
      rw [List.foldr_cons]
      rfl
    rw [hcons]
    cases ns with
    | nil =>
        have : bStep decl db s fuel t (g, .idList [])
            (buildFlds decl db s fuel t gl2) = buildFlds decl db s fuel t gl2 := by
          simp [bStep, hdecl, DVal.truthy]
        rw [this]
        simpa using findList_not_names _ g
          (fun hm => h2 (buildFlds_names decl db s fuel t gl2 g hm))
    | cons n ns2 =>
        cases hfm : (n :: ns2).filterMap
            (fun n => createRecord decl db s fuel w (jsonRecordLookup db w n s)) with
        | nil =>
            have : bStep decl db s fuel t (g, .idList (n :: ns2))
                (buildFlds decl db s fuel t gl2) = buildFlds decl db s fuel t gl2 := by
              simp [bStep, hdecl, DVal.truthy, DVal.idsOf, hfm]
            rw [this]
            simpa [hfm] using findList_not_names _ g
              (fun hm => h2 (buildFlds_names decl db s fuel t gl2 g hm))
        | cons m2 ms =>
            have : bStep decl db s fuel t (g, .idList (n :: ns2))
                (buildFlds decl db s fuel t gl2)
                = ((buildFlds decl db s fuel t gl2).1,
                   .list g (RecL.ofList (m2 :: ms)) (buildFlds decl db s fuel t gl2).2) := by
              simp [bStep, hdecl, DVal.truthy, DVal.idsOf, hfm]
            rw [this]
            simp [NFlds.findList, hfm]

/-- C8 witness: a store holding only the row of type U with id 2; the
single field c stores the dangling id 5 and reconstructs to absent, while
the list field xs stores ids 5 and 2 and reconstructs to the one-element
list of the record rebuilt from id 2. -/
theorem c8_dangling_references_tolerated_witness :
    (∃ m, createRecord
          (fun t f =>
            if t = "T" ∧ f = "c" then some (.nested "U")
            else if t = "T" ∧ f = "xs" then some (.nestedList "U") else none)
          "d"
          { freshSt with
              dataF := fupd2 freshSt.dataF "d" "U" (some ⟨[⟨⟨2, []⟩, false⟩]⟩) }
          2 "T" (some ⟨1, [("c", .idv 5)] ++ ("xs", .idList [5, 2]) :: []⟩)
        = some m ∧
      m.nested.findList "xs" =
        (match ([5, 2] : List Nat).filterMap
            (fun n => createRecord
              (fun t f =>
                if t = "T" ∧ f = "c" then some (.nested "U")
                else if t = "T" ∧ f = "xs" then some (.nestedList "U") else none)
              "d"
              { freshSt with
                  dataF := fupd2 freshSt.dataF "d" "U" (some ⟨[⟨⟨2, []⟩, false⟩]⟩) }
              1 "U" (jsonRecordLookup "d" "U" n
                { freshSt with
                    dataF := fupd2 freshSt.dataF "d" "U" (some ⟨[⟨⟨2, []⟩, false⟩]⟩) })) with
         | [] => none
         | m2 :: ms => some (RecL.ofList (m2 :: ms)))) :=
  (c8_dangling_references_tolerated
      (fun t f =>
        if t = "T" ∧ f = "c" then some (.nested "U")
        else if t = "T" ∧ f = "xs" then some (.nestedList "U") else none)
      "d"
      { freshSt with
          dataF := fupd2 freshSt.dataF "d" "U" (some ⟨[⟨⟨2, []⟩, false⟩]⟩) } 1).2
    "T" "U" "xs" [5, 2] 1 [("c", .idv 5)] [] (by decide) (by decide) (by decide)

/-! ### Preservation properties of assign_ids (towards claim C1) -/

theorem nextId_files (t : RType) (db : DBName) (s : St) :
    (nextId t db s).2.dataF = s.dataF ∧ (nextId t db s).2.ledgerF = s.ledgerF :=
  ⟨rfl, rfl⟩

mutual
theorem assignIds_files_rec : ∀ (r : CRec) (db : DBName) (s : St),
    (r.assignIds db s).2.dataF = s.dataF ∧ (r.assignIds db s).2.ledgerF = s.ledgerF
  | .mk t i sc nf, db, s => by
      cases i with
      | none =>
          have h1 := assignIds_files_nf nf db (nextId t db s).2
          simpa [CRec.assignIds] using h1
      | some v =>
          have h1 := assignIds_files_nf nf db s
          simpa [CRec.assignIds] using h1
theorem assignIds_files_nf : ∀ (nf : NFlds) (db : DBName) (s : St),
    (nf.assignIds db s).2.dataF = s.dataF ∧ (nf.assignIds db s).2.ledgerF = s.ledgerF
  | .nil, db, s => ⟨rfl, rfl⟩
  | .single f r rest, db, s => by
      have h1 := assignIds_files_rec r db s
      have h2 := assignIds_files_nf rest db (r.assignIds db s).2
      simpa [NFlds.assignIds, h1.1, h1.2] using h2
  | .list f rs rest, db, s => by
      have h1 := assignIds_files_recl rs db s
      have h2 := assignIds_files_nf rest db (rs.assignIds db s).2
      simpa [NFlds.assignIds, h1.1, h1.2] using h2
theorem assignIds_files_recl : ∀ (rs : RecL) (db : DBName) (s : St),
    (rs.assignIds db s).2.dataF = s.dataF ∧ (rs.assignIds db s).2.ledgerF = s.ledgerF
  | .rnil, db, s => ⟨rfl, rfl⟩
  | .rcons r rest, db, s => by
      have h1 := assignIds_files_rec r db s
      have h2 := assignIds_files_recl rest db (r.assignIds db s).2
      simpa [RecL.assignIds, h1.1, h1.2] using h2
end

mutual
theorem assignIds_canon_rec : ∀ (r : CRec) (db : DBName) (s : St),
    ((r.assignIds db s).1).canon = r.canon
  | .mk t i sc nf, db, s => by
      cases i with
      | none =>
          have h1 := assignIds_canon_nf nf db (nextId t db s).2
          simpa [CRec.assignIds, CRec.canon] using h1
      | some v =>
          have h1 := assignIds_canon_nf nf db s
          simpa [CRec.assignIds, CRec.canon] using h1
theorem assignIds_canon_nf : ∀ (nf : NFlds) (db : DBName) (s : St),
    ((nf.assignIds db s).1).canon = nf.canon
  | .nil, db, s => rfl
  | .single f r rest, db, s => by
      have h1 := assignIds_canon_rec r db s
      have h2 := assignIds_canon_nf rest db (r.assignIds db s).2
      simp [NFlds.assignIds, NFlds.canon, h1, h2]
  | .list f rs rest, db, s => by
      have h1 := assignIds_canonL_recl rs db s
      have h2 := assignIds_canon_nf rest db (rs.assignIds db s).2
      cases hrs : (rs.assignIds db s).1 with
      | rnil =>
          cases rs with
          | rnil => simp [NFlds.assignIds, NFlds.canon, hrs, h2]
          | rcons a b => exact absurd hrs (by simp [RecL.assignIds])
      | rcons a2 b2 =>
          cases rs with
          | rnil => exact absurd hrs (by simp [RecL.assignIds])
          | rcons a b =>
              rw [hrs] at h1
              simp only [NFlds.assignIds, NFlds.canon, hrs]
              simp only [RecL.canonL] at h1
              simp [NFlds.canon, h1, h2, RecL.canonL]
theorem assignIds_canonL_recl : ∀ (rs : RecL) (db : DBName) (s : St),
    ((rs.assignIds db s).1).canonL = rs.canonL
  | .rnil, db, s => rfl
  | .rcons r rest, db, s => by
      have h1 := assignIds_canon_rec r db s
      have h2 := assignIds_canonL_recl rest db (r.assignIds db s).2
      simp [RecL.assignIds, RecL.canonL, h1, h2]
end

theorem assignIds_rtype (r : CRec) (db : DBName) (s : St) :
    ((r.assignIds db s).1).rtype = r.rtype := by
  cases r with
  | mk t i sc nf => cases i <;> simp [CRec.assignIds, CRec.rtype]

theorem assignIds_scalars (r : CRec) (db : DBName) (s : St) :
    ((r.assignIds db s).1).scalars = r.scalars := by
  cases r with
  | mk t i sc nf => cases i <;> simp [CRec.assignIds, CRec.scalars]

theorem assignIds_allType (u : RType) (db : DBName) :
    ∀ (rs : RecL) (s : St), ((rs.assignIds db s).1).allType u = rs.allType u
  | .rnil, s => rfl
  | .rcons r rest, s => by
      have h1 := assignIds_rtype r db s
      have h2 := assignIds_allType u db rest (r.assignIds db s).2
      simp [RecL.assignIds, RecL.allType, h1, h2]

mutual
theorem assignIds_wt_rec (decl : Decl) : ∀ (r : CRec) (db : DBName) (s : St),
    ((r.assignIds db s).1).wt decl = r.wt decl
  | .mk t i sc nf, db, s => by
      cases i with
      | none =>
          have h1 := assignIds_wt_nf decl nf t db (nextId t db s).2
          simp [CRec.assignIds, CRec.wt, h1]
      | some v =>
          have h1 := assignIds_wt_nf decl nf t db s
          simp [CRec.assignIds, CRec.wt, h1]
theorem assignIds_wt_nf (decl : Decl) : ∀ (nf : NFlds) (t : RType) (db : DBName) (s : St),
    ((nf.assignIds db s).1).wt decl t = nf.wt decl t
  | .nil, t, db, s => rfl
  | .single f r rest, t, db, s => by
      have h1 := assignIds_wt_rec decl r db s
      have h2 := assignIds_wt_nf decl rest t db (r.assignIds db s).2
      have h3 := assignIds_rtype r db s
      simp [NFlds.assignIds, NFlds.wt, h1, h2, h3]
  | .list f rs rest, t, db, s => by
      have h1 := assignIds_wt_recl decl rs db s
      have h2 := assignIds_wt_nf decl rest t db (rs.assignIds db s).2
      have h3 := assignIds_allType (match decl t f with
        | some (.nestedList u) => u
        | _ => "") db rs s
      cases hd : decl t f with
      | none => simp [NFlds.assignIds, NFlds.wt, hd]
      | some k =>
          cases k with
          | scalar => simp [NFlds.assignIds, NFlds.wt, hd]
          | nested u => simp [NFlds.assignIds, NFlds.wt, hd]
          | nestedList u =>
              have h4 := assignIds_allType u db rs s
              simp [NFlds.assignIds, NFlds.wt, hd, h1, h2, h4]
theorem assignIds_wt_recl (decl : Decl) : ∀ (rs : RecL) (db : DBName) (s : St),
    ((rs.assignIds db s).1).wt decl = rs.wt decl
  | .rnil, db, s => rfl
  | .rcons r rest, db, s => by
      have h1 := assignIds_wt_rec decl r db s
      have h2 := assignIds_wt_recl decl rest db (r.assignIds db s).2
      simp [RecL.assignIds, RecL.wt, h1, h2]
end

mutual
theorem assignIds_depth_rec : ∀ (r : CRec) (db : DBName) (s : St),
    ((r.assignIds db s).1).depth = r.depth
  | .mk t i sc nf, db, s => by
      cases i with
      | none =>
          have h1 := assignIds_depth_nf nf db (nextId t db s).2
          simpa [CRec.assignIds, CRec.depth] using h1
      | some v =>
          have h1 := assignIds_depth_nf nf db s
          simpa [CRec.assignIds, CRec.depth] using h1
theorem assignIds_depth_nf : ∀ (nf : NFlds) (db : DBName) (s : St),
    ((nf.assignIds db s).1).depth = nf.depth
  | .nil, db, s => rfl
  | .single f r rest, db, s => by
      have h1 := assignIds_depth_rec r db s
      have h2 := assignIds_depth_nf rest db (r.assignIds db s).2
      simp [NFlds.assignIds, NFlds.depth, h1, h2]
  | .list f rs rest, db, s => by
      have h1 := assignIds_depth_recl rs db s
      have h2 := assignIds_depth_nf rest db (rs.assignIds db s).2
      simp [NFlds.assignIds, NFlds.depth, h1, h2]
theorem assignIds_depth_recl : ∀ (rs : RecL) (db : DBName) (s : St),
    ((rs.assignIds db s).1).depth = rs.depth
  | .rnil, db, s => rfl
  | .rcons r rest, db, s => by
      have h1 := assignIds_depth_rec r db s
      have h2 := assignIds_depth_recl rest db (r.assignIds db s).2
      simp [RecL.assignIds, RecL.depth, h1, h2]
end

/-! ### Freshness of the identifiers assigned by assign_ids -/

theorem nodup_append_of_bounds (a b : List Nat) (y : Nat)
    (ha : ∀ n ∈ a, n ≤ y) (hb : ∀ n ∈ b, y < n)
    (hd1 : a.Nodup) (hd2 : b.Nodup) : (a ++ b).Nodup := by
  refine List.Nodup.append hd1 hd2 ?_
  intro n h1 h2
  have := ha n h1
  have := hb n h2
  omega

/-- Composition of two allocation phases: identifiers drawn from two
consecutive counter intervals are jointly in the outer interval and
pairwise distinct, whichever order the two groups are listed in. -/
theorem idsSeq (db : DBName) (s s1 s2 : St) (l1 l2 : RType → List Nat)
    (m1 : ∀ u, eff db s u ≤ eff db s1 u)
    (b1 : ∀ u n, n ∈ l1 u → eff db s u < n ∧ n ≤ eff db s1 u)
    (d1 : ∀ u, (l1 u).Nodup)
    (m2 : ∀ u, eff db s1 u ≤ eff db s2 u)
    (b2 : ∀ u n, n ∈ l2 u → eff db s1 u < n ∧ n ≤ eff db s2 u)
    (d2 : ∀ u, (l2 u).Nodup) :
    (∀ u, eff db s u ≤ eff db s2 u) ∧
    (∀ u n, n ∈ l1 u ++ l2 u → eff db s u < n ∧ n ≤ eff db s2 u) ∧
    (∀ u, (l1 u ++ l2 u).Nodup) := by
  refine ⟨fun u => le_trans (m1 u) (m2 u), ?_, ?_⟩
  · intro u n hn
    rcases List.mem_append.mp hn with h | h
    · exact ⟨(b1 u n h).1, le_trans (b1 u n h).2 (m2 u)⟩
    · exact ⟨lt_of_le_of_lt (m1 u) (b2 u n h).1, (b2 u n h).2⟩
  · intro u
    exact nodup_append_of_bounds _ _ (eff db s1 u)
      (fun n h => (b1 u n h).2) (fun n h => (b2 u n h).1) (d1 u) (d2 u)

mutual
/-- Every identifier `assign_ids` gives to a tree with no preset ids lies
strictly above the effective counter of its type before the call and at
most at the counter after it, and the identifiers of each type are
pairwise distinct. -/
theorem assignIds_eff_rec : ∀ (r : CRec) (db : DBName) (s : St), r.noIds = true →
    (∀ u, eff db s u ≤ eff db (r.assignIds db s).2 u) ∧
    (∀ u n, n ∈ ((r.assignIds db s).1).idsOfType u →
        eff db s u < n ∧ n ≤ eff db (r.assignIds db s).2 u) ∧
    (∀ u, (((r.assignIds db s).1).idsOfType u).Nodup)
  | .mk t i sc nf, db, s => by
      intro hno
      cases i with
      | some v => simp [CRec.noIds] at hno
      | none =>
          simp only [CRec.noIds, Option.isNone_none, Bool.true_and] at hno
          obtain ⟨m2, b2, d2⟩ := assignIds_eff_nf nf db (nextId t db s).2 hno
          have hred : (CRec.assignIds db (.mk t none sc nf) s) =
              (.mk t (some (nextId t db s).1) sc ((nf.assignIds db (nextId t db s).2).1),
               (nf.assignIds db (nextId t db s).2).2) := rfl
          have hval : (nextId t db s).1 = eff db s t + 1 := rfl
          have hs1t : eff db (nextId t db s).2 t = eff db s t + 1 := eff_nextId_same t db s
          have hs1o : ∀ u, u ≠ t → eff db (nextId t db s).2 u = eff db s u :=
            fun u hu => eff_nextId_other t u db db s hu
          have hm1 : ∀ u, eff db s u ≤ eff db (nextId t db s).2 u := by
            intro u
            by_cases hu : u = t
            · subst hu; omega
            · rw [hs1o u hu]
          have hids : ∀ u, ((CRec.mk t (some (nextId t db s).1) sc
                ((nf.assignIds db (nextId t db s).2).1)).idsOfType u) =
              ((nf.assignIds db (nextId t db s).2).1).idsOfType u ++
                (if t = u then [eff db s t + 1] else []) := by
            intro u
            simp [CRec.idsOfType, CRec.idOr0, CRec.rid, hval]
          rw [hred]
          dsimp only
          refine ⟨fun u => le_trans (hm1 u) (m2 u), ?_, ?_⟩
          · intro u n hn
            rw [hids u] at hn
            rcases List.mem_append.mp hn with h | h
            · have hb := b2 u n h
              have hm := hm1 u
              exact ⟨by omega, hb.2⟩
            · by_cases hu : t = u
              · rw [if_pos hu] at h
                simp only [List.mem_singleton] at h
                subst h
                subst hu
                have := m2 t
                rw [hs1t] at this
                omega
              · rw [if_neg hu] at h
                simp at h
          · intro u
            rw [hids u]
            by_cases hu : t = u
            · rw [if_pos hu]
              subst hu
              have hb : ∀ n ∈ ((nf.assignIds db (nextId t db s).2).1).idsOfType t,
                  eff db s t + 1 < n := by
                intro n h
                have := (b2 t n h).1
                rw [hs1t] at this
                omega
              refine List.Nodup.append (d2 t) (by simp) ?_
              intro n h1 h2
              simp only [List.mem_singleton] at h2
              subst h2
              have := hb _ h1
              omega
            · rw [if_neg hu]
              simpa using d2 u
theorem assignIds_eff_nf : ∀ (nf : NFlds) (db : DBName) (s : St), nf.noIds = true →
    (∀ u, eff db s u ≤ eff db (nf.assignIds db s).2 u) ∧
    (∀ u n, n ∈ ((nf.assignIds db s).1).idsOfType u →
        eff db s u < n ∧ n ≤ eff db (nf.assignIds db s).2 u) ∧
    (∀ u, (((nf.assignIds db s).1).idsOfType u).Nodup)
  | .nil, db, s => by
      intro _
      exact ⟨fun u => le_refl _, fun u n hn => by simp [NFlds.idsOfType] at hn,
        fun u => by simp [NFlds.idsOfType]⟩
  | .single f r rest, db, s => by
      intro hno
      simp only [NFlds.noIds, Bool.and_eq_true] at hno
      obtain ⟨ma, ba, da⟩ := assignIds_eff_rec r db s hno.1
      obtain ⟨mb, bb, db2⟩ := assignIds_eff_nf rest db (r.assignIds db s).2 hno.2
      have hred : ((NFlds.single f r rest).assignIds db s) =
          (.single f (r.assignIds db s).1 ((rest.assignIds db (r.assignIds db s).2).1),
           (rest.assignIds db (r.assignIds db s).2).2) := rfl
      rw [hred]
      have := idsSeq db s (r.assignIds db s).2 (rest.assignIds db (r.assignIds db s).2).2
        (fun u => ((r.assignIds db s).1).idsOfType u)
        (fun u => ((rest.assignIds db (r.assignIds db s).2).1).idsOfType u)
        ma ba da mb bb db2
      simpa [NFlds.idsOfType] using this
  | .list f rs rest, db, s => by
      intro hno
      simp only [NFlds.noIds, Bool.and_eq_true] at hno
      obtain ⟨ma, ba, da⟩ := assignIds_eff_recl rs db s hno.1
      obtain ⟨mb, bb, db2⟩ := assignIds_eff_nf rest db (rs.assignIds db s).2 hno.2
      have hred : ((NFlds.list f rs rest).assignIds db s) =
          (.list f (rs.assignIds db s).1 ((rest.assignIds db (rs.assignIds db s).2).1),
           (rest.assignIds db (rs.assignIds db s).2).2) := rfl
      rw [hred]
      have := idsSeq db s (rs.assignIds db s).2 (rest.assignIds db (rs.assignIds db s).2).2
        (fun u => ((rs.assignIds db s).1).idsOfType u)
        (fun u => ((rest.assignIds db (rs.assignIds db s).2).1).idsOfType u)
        ma ba da mb bb db2
      simpa [NFlds.idsOfType] using this
theorem assignIds_eff_recl : ∀ (rs : RecL) (db : DBName) (s : St), rs.noIds = true →
    (∀ u, eff db s u ≤ eff db (rs.assignIds db s).2 u) ∧
    (∀ u n, n ∈ ((rs.assignIds db s).1).idsOfType u →
        eff db s u < n ∧ n ≤ eff db (rs.assignIds db s).2 u) ∧
    (∀ u, (((rs.assignIds db s).1).idsOfType u).Nodup)
  | .rnil, db, s => by
      intro _
      exact ⟨fun u => le_refl _, fun u n hn => by simp [RecL.idsOfType] at hn,
        fun u => by simp [RecL.idsOfType]⟩
  | .rcons r rest, db, s => by
      intro hno
      simp only [RecL.noIds, Bool.and_eq_true] at hno
      obtain ⟨ma, ba, da⟩ := assignIds_eff_rec r db s hno.1
      obtain ⟨mb, bb, db2⟩ := assignIds_eff_recl rest db (r.assignIds db s).2 hno.2
      have hred : ((RecL.rcons r rest).assignIds db s) =
          (.rcons (r.assignIds db s).1 ((rest.assignIds db (r.assignIds db s).2).1),
           (rest.assignIds db (r.assignIds db s).2).2) := rfl
      rw [hred]
      have := idsSeq db s (r.assignIds db s).2 (rest.assignIds db (r.assignIds db s).2).2
        (fun u => ((r.assignIds db s).1).idsOfType u)
        (fun u => ((rest.assignIds db (r.assignIds db s).2).1).idsOfType u)
        ma ba da mb bb db2
      simpa [RecL.idsOfType] using this
end

/-! ### The rows emitted by dictionary_form -/

theorem ownRow_id (r : CRec) : r.ownRow.id = r.idOr0 := rfl

mutual
/-- The ids of the rows of one type among the emitted rows are exactly the
node identifiers of that type. -/
theorem flat_ids_rec : ∀ (r : CRec) (u : RType),
    (r.flatRows).filterMap (fun p => if p.1 = u then some p.2.id else none)
      = r.idsOfType u
  | .mk t i sc nf, u => by
      rw [CRec.flatRows, List.filterMap_append, flat_ids_nf nf u]
      rw [CRec.idsOfType]
      congr 1
      by_cases ht : t = u
      · simp [ht, ownRow_id]
      · simp [ht]
theorem flat_ids_nf : ∀ (nf : NFlds) (u : RType),
    (nf.flatSubs).filterMap (fun p => if p.1 = u then some p.2.id else none)
      = nf.idsOfType u
  | .nil, u => rfl
  | .single f r rest, u => by
      rw [NFlds.flatSubs, List.filterMap_append, flat_ids_rec r u, flat_ids_nf rest u]
      rfl
  | .list f rs rest, u => by
      rw [NFlds.flatSubs, List.filterMap_append, flat_ids_recl rs u, flat_ids_nf rest u]
      rfl
theorem flat_ids_recl : ∀ (rs : RecL) (u : RType),
    (rs.flatAll).filterMap (fun p => if p.1 = u then some p.2.id else none)
      = rs.idsOfType u
  | .rnil, u => rfl
  | .rcons r rest, u => by
      rw [RecL.flatAll, List.filterMap_append, flat_ids_rec r u, flat_ids_recl rest u]
      rfl
end

theorem ownRow_mem_flat (r : CRec) : (r.rtype, r.ownRow) ∈ r.flatRows := by
  cases r with
  | mk t i sc nf =>
      rw [CRec.flatRows]
      exact List.mem_append_right _ (by simp [CRec.rtype])

mutual
/-- If the store answers every emitted row of the tree by exactly that
row, then the tree's references all resolve (`storeHas`). -/
theorem storeHas_of_flat_rec (db : DBName) (st : St) : ∀ (r : CRec),
    (∀ p ∈ r.flatRows, jsonRecordLookup db p.1 p.2.id st = some p.2) →
    r.storeHas db st = true
  | .mk t i sc nf => by
      intro H
      rw [CRec.storeHas]
      exact storeHas_of_flat_nf db st nf
        (fun p hp => H p (by rw [CRec.flatRows]; exact List.mem_append_left _ hp))
theorem storeHas_of_flat_nf (db : DBName) (st : St) : ∀ (nf : NFlds),
    (∀ p ∈ nf.flatSubs, jsonRecordLookup db p.1 p.2.id st = some p.2) →
    nf.storeHas db st = true
  | .nil => by intro _; rfl
  | .single f r rest => by
      intro H
      rw [NFlds.storeHas]
      have hr : jsonRecordLookup db r.rtype r.idOr0 st = some r.ownRow := by
        have := H (r.rtype, r.ownRow)
          (by rw [NFlds.flatSubs]; exact List.mem_append_left _ (ownRow_mem_flat r))
        simpa [ownRow_id] using this
      have h1 := storeHas_of_flat_rec db st r
        (fun p hp => H p (by rw [NFlds.flatSubs]; exact List.mem_append_left _ hp))
      have h2 := storeHas_of_flat_nf db st rest
        (fun p hp => H p (by rw [NFlds.flatSubs]; exact List.mem_append_right _ hp))
      simp [hr, h1, h2]
  | .list f rs rest => by
      intro H
      rw [NFlds.storeHas]
      have h1 := storeHas_of_flat_recl db st rs
        (fun p hp => H p (by rw [NFlds.flatSubs]; exact List.mem_append_left _ hp))
      have h2 := storeHas_of_flat_nf db st rest
        (fun p hp => H p (by rw [NFlds.flatSubs]; exact List.mem_append_right _ hp))
      simp [h1, h2]
theorem storeHas_of_flat_recl (db : DBName) (st : St) : ∀ (rs : RecL),
    (∀ p ∈ rs.flatAll, jsonRecordLookup db p.1 p.2.id st = some p.2) →
    rs.storeHas db st = true
  | .rnil => by intro _; rfl
  | .rcons r rest => by
      intro H
      rw [RecL.storeHas]
      have hr : jsonRecordLookup db r.rtype r.idOr0 st = some r.ownRow := by
        have := H (r.rtype, r.ownRow)
          (by rw [RecL.flatAll]; exact List.mem_append_left _ (ownRow_mem_flat r))
        simpa [ownRow_id] using this
      have h1 := storeHas_of_flat_rec db st r
        (fun p hp => H p (by rw [RecL.flatAll]; exact List.mem_append_left _ hp))
      have h2 := storeHas_of_flat_recl db st rest
        (fun p hp => H p (by rw [RecL.flatAll]; exact List.mem_append_right _ hp))
      simp [hr, h1, h2]
end

/-! ### Lookup characterization of the grouped batch -/

theorem lookup_none_iff {β : Type} (t : RType) (g : List (RType × β)) :
    List.lookup t g = none ↔ t ∉ g.map Prod.fst := by
  induction g with
  | nil => simp [List.lookup]
  | cons p ps ih =>
      rw [List.lookup]
      cases hk : t == p.1 with
      | true =>
          simp only [List.map_cons, List.mem_cons]
          have : t = p.1 := by simpa using hk
          simp [this]
      | false =>
          have : ¬t = p.1 := by simpa using hk
          simp [ih, this]

theorem lookup_append_right_of_none {β : Type} (t : RType) (a b : List (RType × β))
    (h : List.lookup t a = none) : List.lookup t (a ++ b) = List.lookup t b := by
  induction a with
  | nil => rfl
  | cons p ps ih =>
      rw [List.lookup] at h
      rw [List.cons_append, List.lookup]
      cases hk : t == p.1 with
      | true => rw [hk] at h; exact absurd h (by simp)
      | false => rw [hk] at h; exact ih h

theorem lookup_map_upd (t t2 : RType) (row : Row) (g : List (RType × List Row)) :
    List.lookup t (g.map (fun p => if p.1 = t2 then (p.1, p.2 ++ [row]) else p)) =
      (if t2 = t then (List.lookup t g).map (fun x => x ++ [row])
       else List.lookup t g) := by
  induction g with
  | nil => by_cases ht : t2 = t <;> simp [List.lookup, ht]
  | cons p ps ih =>
      have hkey : (if p.1 = t2 then (p.1, p.2 ++ [row]) else p).1 = p.1 := by
        by_cases hp : p.1 = t2 <;> simp [hp]
      rw [List.map_cons, List.lookup, hkey]
      cases hk : t == p.1 with
      | true =>
          have heq : t = p.1 := by simpa using hk
          rw [List.lookup, hk]
          by_cases ht : t2 = t
          · have : p.1 = t2 := by rw [heq] at ht; exact ht.symm
            simp [this, ht]
          · have : ¬p.1 = t2 := by
              intro hh
              exact ht ((heq.trans hh).symm)
            simp [this, ht]
      | false =>
          rw [List.lookup, hk, ih]

theorem lookup_gInsert (g : List (RType × List Row)) (t2 t : RType) (row : Row) :
    List.lookup t (gInsert g t2 row) =
      (if t2 = t then some (((List.lookup t g).getD []) ++ [row])
       else List.lookup t g) := by
  by_cases hc : (g.map Prod.fst).contains t2
  · rw [gInsert, if_pos hc, lookup_map_upd]
    by_cases ht : t2 = t
    · subst ht
      have : ¬List.lookup t2 g = none := by
        rw [lookup_none_iff]
        simpa using hc
      cases hl : List.lookup t2 g with
      | none => exact absurd hl this
      | some rows => simp [hl]
    · simp [ht]
  · rw [gInsert, if_neg hc]
    by_cases ht : t2 = t
    · subst ht
      have hnone : List.lookup t2 g = none := by
        rw [lookup_none_iff]
        simpa using hc
      rw [lookup_append_right_of_none t2 g _ hnone]
      simp [List.lookup, hnone]
    · cases hl : List.lookup t g with
      | none =>
          rw [lookup_append_right_of_none t g _ hl]
          have hbt : (t == t2) = false := by
            cases hx : t == t2
            · rfl
            · exact absurd ((by simpa using hx : t = t2))
                (fun hh => ht hh.symm)
          simp [List.lookup, hbt, ht, hl]
      | some rows =>
          rw [lookup_append_left g _ t rows hl]
          simp [ht, hl]

theorem groupRows_go_lookup (t : RType) :
    ∀ (l : List (RType × Row)) (g : List (RType × List Row)),
      List.lookup t (l.foldl (fun g q => gInsert g q.1 q.2) g) =
        (match List.lookup t g,
            l.filterMap (fun q => if q.1 = t then some q.2 else none) with
         | none, [] => none
         | none, fl => some fl
         | some rows, fl => some (rows ++ fl)) := by
  intro l
  induction l with
  | nil =>
      intro g
      show List.lookup t g = _
      cases hl : List.lookup t g with
      | none => rfl
      | some rows => simp
  | cons q l ih =>
      intro g
      rw [List.foldl_cons, ih (gInsert g q.1 q.2), lookup_gInsert]
      by_cases hq : q.1 = t
      · rw [if_pos hq]
        cases hl : List.lookup t g with
        | none =>
            simp only [hl, Option.getD_none, List.nil_append, List.filterMap_cons, hq,
              if_pos]
            cases hfl : l.filterMap (fun q => if q.1 = t then some q.2 else none) with
            | nil => simp
            | cons a as => simp
        | some rows =>
            simp only [hl, Option.getD_some, List.filterMap_cons, hq, if_pos]
            cases hfl : l.filterMap (fun q => if q.1 = t then some q.2 else none) with
            | nil => simp
            | cons a as => simp
      · rw [if_neg hq]
        simp only [List.filterMap_cons, hq, if_neg, ite_false]

theorem groupRows_lookup (l : List (RType × Row)) (t : RType) :
    List.lookup t (groupRows l) =
      (match l.filterMap (fun q => if q.1 = t then some q.2 else none) with
       | [] => none
       | fl => some fl) := by
  rw [groupRows, groupRows_go_lookup]
  cases hfl : l.filterMap (fun q => if q.1 = t then some q.2 else none) with
  | nil => rfl
  | cons a as => rfl

theorem mem_of_lookup {β : Type} (t : RType) (v : β) :
    ∀ (g : List (RType × β)), List.lookup t g = some v → (t, v) ∈ g := by
  intro g
  induction g with
  | nil => intro h; simp [List.lookup] at h
  | cons p ps ih =>
      intro h
      rw [List.lookup] at h
      cases hk : t == p.1 with
      | true =>
          rw [hk] at h
          have h1 : t = p.1 := by simpa using hk
          have h2 : p.2 = v := by simpa using h
          have h3 : (t, v) = p := by rw [h1, ← h2]
          rw [h3]
          exact List.mem_cons_self p ps
      | false =>
          rw [hk] at h
          exact List.mem_cons_of_mem _ (ih h)

/-! ### The store after a fresh add -/

theorem ledger_fold_dataF (db : DBName) :
    ∀ (batch : List (RType × List Row)) (s : St),
      (batch.foldl (fun s p => ledgerAdd db p.1 p.2 s) s).dataF = s.dataF := by
  intro batch
  induction batch with
  | nil => intro s; rfl
  | cons p ps ih => intro s; exact ih (ledgerAdd db p.1 p.2 s)

theorem addFold_not_mem (db : DBName) :
    ∀ (batch : List (RType × List Row)) (s : St) (t : RType),
      t ∉ batch.map Prod.fst →
      ((batch.foldl
          (fun s p =>
            if p.2 = [] then s
            else
              { s with dataF :=
                  fupd2 s.dataF db p.1 (some (jAdd p.2 ((s.dataF db p.1).getD jInit))) })
          s).dataF db t)
        = s.dataF db t := by
  intro batch
  induction batch with
  | nil => intro s t _; rfl
  | cons p ps ih =>
      intro s t ht
      simp only [List.map_cons, List.mem_cons] at ht
      push_neg at ht
      rw [List.foldl_cons]
      by_cases hp : p.2 = []
      · rw [if_pos hp]
        exact ih s t ht.2
      · rw [if_neg hp]
        rw [ih _ t ht.2]
        exact fupd2_other _ _ _ _ _ _ (fun hh => ht.1 hh.2)

theorem addFold_mem (db : DBName) :
    ∀ (batch : List (RType × List Row)) (s : St) (t : RType) (rows : List Row),
      nodupB (batch.map Prod.fst) = true → (t, rows) ∈ batch → rows ≠ [] →
      ((batch.foldl
          (fun s p =>
            if p.2 = [] then s
            else
              { s with dataF :=
                  fupd2 s.dataF db p.1 (some (jAdd p.2 ((s.dataF db p.1).getD jInit))) })
          s).dataF db t)
        = some (jAdd rows ((s.dataF db t).getD jInit)) := by
  intro batch
  induction batch with
  | nil => intro s t rows _ hmem _; simp at hmem
  | cons p ps ih =>
      intro s t rows hnd hmem hrows
      simp only [List.map_cons, nodupB, Bool.and_eq_true, Bool.not_eq_true'] at hnd
      rw [List.foldl_cons]
      rcases List.mem_cons.mp hmem with heq | htail
      · have hp1 : p.1 = t := by rw [← heq]
        have hp2 : p.2 = rows := by rw [← heq]
        rw [if_neg (by rw [hp2]; exact hrows)]
        rw [addFold_not_mem db ps _ t (by
          intro hmem2
          have h5 := hnd.1
          rw [hp1] at h5
          simp [hmem2] at h5)]
        show fupd2 s.dataF db p.1
            (some (jAdd p.2 ((s.dataF db p.1).getD jInit))) db t = _
        rw [hp1, hp2]
        simp [fupd2_same]
      · have hne : p.1 ≠ t := by
          intro hh
          have : t ∈ ps.map Prod.fst := by
            exact List.mem_map.mpr ⟨(t, rows), htail, rfl⟩
          rw [hh] at hnd
          simp [this] at hnd
        by_cases hp : p.2 = []
        · rw [if_pos hp]
          exact ih s t rows hnd.2 htail hrows
        · rw [if_neg hp]
          rw [ih _ t rows hnd.2 htail hrows]
          have h6 : fupd2 s.dataF db p.1
              (some (jAdd p.2 ((s.dataF db p.1).getD jInit))) db t
              = s.dataF db t :=
            fupd2_other _ _ _ _ _ _ (fun hh => hne hh.2.symm)
          show some (jAdd rows ((fupd2 s.dataF db p.1
              (some (jAdd p.2 ((s.dataF db p.1).getD jInit))) db t).getD jInit)) = _
          rw [h6]

theorem coderAdd_dataF_mem (db : DBName) (batch : List (RType × List Row)) (s : St)
    (t : RType) (rows : List Row) (hnd : nodupB (batch.map Prod.fst) = true)
    (hmem : (t, rows) ∈ batch) (hrows : rows ≠ []) :
    (coderAdd db batch s).dataF db t = some (jAdd rows ((s.dataF db t).getD jInit)) := by
  unfold coderAdd
  rw [addFold_mem db batch _ t rows hnd hmem hrows]
  rw [congrFun (congrFun (ledger_fold_dataF db batch s) db) t]

theorem jAdd_jInit (rows : List Row) : jAdd rows jInit = ⟨newLines rows⟩ := rfl

theorem find?_map_row (q : Row → Bool) :
    ∀ (lines : List JLine),
      (lines.find? (fun l => q l.row)).map JLine.row = (lines.map JLine.row).find? q := by
  intro lines
  induction lines with
  | nil => rfl
  | cons l ls ih =>
      rw [List.map_cons, List.find?_cons, List.find?_cons]
      cases hq : q l.row with
      | true => rfl
      | false => exact ih

theorem jfLookup_newLines (rows : List Row) (i : Nat) :
    jfLookup ⟨newLines rows⟩ i = rows.find? (fun r => r.id = i) := by
  show ((newLines rows).find? (fun l => l.row.id = i)).map JLine.row = _
  rw [find?_map_row (fun r => r.id = i) (newLines rows), newLines_rows]

theorem find?_eq_of_nodup :
    ∀ (rows : List Row) (r : Row) (i : Nat),
      (rows.map Row.id).Nodup → r ∈ rows → r.id = i →
      rows.find? (fun x => x.id = i) = some r := by
  intro rows
  induction rows with
  | nil => intro r i _ hmem _; simp at hmem
  | cons x xs ih =>
      intro r i hnd hmem hid
      rw [List.map_cons, List.nodup_cons] at hnd
      rw [List.find?_cons]
      cases hx : (decide (x.id = i) : Bool) with
      | true =>
          have hxi : x.id = i := by simpa using hx
          rcases List.mem_cons.mp hmem with heq | htail
          · rw [heq]
          · exact absurd (List.mem_map.mpr ⟨r, htail, by rw [hid, ← hxi]⟩) hnd.1
      | false =>
          have hxi : ¬x.id = i := by simpa using hx
          rcases List.mem_cons.mp hmem with heq | htail
          · exact absurd (heq ▸ hid) hxi
          · exact ih r i hnd.2 htail hid

theorem dbAdd_single (db : DBName) (r : CRec) (s : St) :
    dbAdd db [r] s =
      ([(r.assignIds db s).1],
       coderAdd db (groupRows ((r.assignIds db s).1).flatRows) (r.assignIds db s).2) := rfl

/-- After a fresh `CDEDatabase.add` of one unidentified record tree, the
store answers every emitted row by exactly that row. -/
theorem dbAdd_fresh_lookups (db : DBName) (r : CRec) (hno : r.noIds = true) :
    ∀ p ∈ ((r.assignIds db freshSt).1).flatRows,
      jsonRecordLookup db p.1 p.2.id (dbAdd db [r] freshSt).2 = some p.2 := by
  intro p hp
  obtain ⟨t, row⟩ := p
  have hmemRow : row ∈ (((r.assignIds db freshSt).1).flatRows).filterMap
      (fun q => if q.1 = t then some q.2 else none) :=
    List.mem_filterMap.mpr ⟨(t, row), hp, by simp⟩
  have hnonnil : (((r.assignIds db freshSt).1).flatRows).filterMap
      (fun q => if q.1 = t then some q.2 else none) ≠ [] := by
    intro h
    rw [h] at hmemRow
    simp at hmemRow
  have hlook : List.lookup t (groupRows ((r.assignIds db freshSt).1).flatRows) =
      some ((((r.assignIds db freshSt).1).flatRows).filterMap
        (fun q => if q.1 = t then some q.2 else none)) := by
    rw [groupRows_lookup]
    cases hfl : (((r.assignIds db freshSt).1).flatRows).filterMap
        (fun q => if q.1 = t then some q.2 else none) with
    | nil => exact absurd hfl hnonnil
    | cons a as => rfl
  have hmemG := mem_of_lookup t _ _ hlook
  have hnd : nodupB ((groupRows ((r.assignIds db freshSt).1).flatRows).map Prod.fst)
      = true :=
    groupRows_go_keysNodup _ [] rfl
  have hdata := coderAdd_dataF_mem db (groupRows ((r.assignIds db freshSt).1).flatRows)
    (r.assignIds db freshSt).2 t _ hnd hmemG hnonnil
  have hfresh : ((r.assignIds db freshSt).2).dataF db t = none := by
    rw [(assignIds_files_rec r db freshSt).1]
    rfl
  rw [hfresh] at hdata
  simp only [Option.getD_none] at hdata
  rw [jAdd_jInit] at hdata
  have hmapid : ((((r.assignIds db freshSt).1).flatRows).filterMap
        (fun q => if q.1 = t then some q.2 else none)).map Row.id
      = ((r.assignIds db freshSt).1).idsOfType t := by
    rw [List.map_filterMap, ← flat_ids_rec (r.assignIds db freshSt).1 t]
    congr 1
    funext q
    by_cases hq : q.1 = t
    · simp [hq]
    · simp [hq]
  have hndids : (((((r.assignIds db freshSt).1).flatRows).filterMap
      (fun q => if q.1 = t then some q.2 else none)).map Row.id).Nodup := by
    rw [hmapid]
    exact (assignIds_eff_rec r db freshSt hno).2.2 t
  show jsonRecordLookup db t row.id (dbAdd db [r] freshSt).2 = some row
  rw [dbAdd_single]
  show jfLookup (((coderAdd db (groupRows ((r.assignIds db freshSt).1).flatRows)
      (r.assignIds db freshSt).2).dataF db t).getD jInit) row.id = some row
  rw [hdata]
  simp only [Option.getD_some]
  rw [jfLookup_newLines]
  exact find?_eq_of_nodup _ row row.id hndids hmemRow rfl

theorem dbAdd_storeHas (db : DBName) (r : CRec) (hno : r.noIds = true) :
    ((r.assignIds db freshSt).1).storeHas db (dbAdd db [r] freshSt).2 = true :=
  storeHas_of_flat_rec db (dbAdd db [r] freshSt).2 (r.assignIds db freshSt).1
    (dbAdd_fresh_lookups db r hno)

/-! ### Reconstruction rebuilds the tree up to serialization -/

theorem appendNF_nil : ∀ (x : NFlds), x.appendNF .nil = x
  | .nil => rfl
  | .single f r rest => by rw [NFlds.appendNF, appendNF_nil rest]
  | .list f rs rest => by rw [NFlds.appendNF, appendNF_nil rest]

theorem buildFlds_scalars (decl : Decl) (db : DBName) (st : St) (fuel : Nat)
    (t : RType) :
    ∀ (sc : List (FName × Value)),
      sc.all (fun p => decide (decl t p.1 = some .scalar)) = true →
      buildFlds decl db st fuel t (sc.map (fun p => (p.1, DVal.val p.2))) = (sc, .nil) := by
  intro sc
  induction sc with
  | nil => intro _; rfl
  | cons p ps ih =>
      intro h
      simp only [List.all_cons, Bool.and_eq_true] at h
      have hdecl : decl t p.1 = some .scalar := of_decide_eq_true h.1
      have hstep : buildFlds decl db st fuel t
          ((p :: ps).map (fun p => (p.1, DVal.val p.2)))
          = bStep decl db st fuel t (p.1, DVal.val p.2)
              (buildFlds decl db st fuel t (ps.map (fun p => (p.1, DVal.val p.2)))) := rfl
      rw [hstep, ih h.2]
      simp [bStep, hdecl]

theorem map_canon_some (o : Option CRec) (c : CRec) (h : o.map CRec.canon = some c) :
    ∃ m, o = some m ∧ m.canon = c := by
  cases o with
  | none => simp at h
  | some m => exact ⟨m, rfl, by simpa using h⟩

mutual
/-- Reconstruction of an emitted row rebuilds the record up to
serialization: with enough fuel, a well-typed record whose references the
store resolves reconstructs from its own row to a record with the same
canonical (serialized) form. -/
theorem recon_rec (decl : Decl) (db : DBName) (st : St) :
    ∀ (r : CRec) (fuel : Nat), r.wt decl = true → r.storeHas db st = true →
      r.depth ≤ fuel →
      (createRecord decl db st fuel r.rtype (some r.ownRow)).map CRec.canon
        = some r.canon
  | .mk t i sc nf, fuel => by
      intro hwt hsh hd
      cases fuel with
      | zero => rw [CRec.depth] at hd; omega
      | succ fl =>
          simp only [CRec.wt, Bool.and_eq_true] at hwt
          rw [CRec.storeHas] at hsh
          rw [CRec.depth] at hd
          have hdnf : nf.depth ≤ fl := by omega
          obtain ⟨nfb, hbuild, hcanon⟩ := recon_nf decl db st nf t fl hwt.2 hsh hdnf
          show (createRecord decl db st (fl + 1) t (some (CRec.mk t i sc nf).ownRow)).map
              CRec.canon = some (CRec.mk t i sc nf).canon
          rw [createRecord_succ]
          have hflds : (CRec.mk t i sc nf).ownRow.flds
              = nf.rowFlds ++ sc.map (fun p => (p.1, DVal.val p.2)) := rfl
          rw [hflds, buildFlds_append, hbuild, buildFlds_scalars decl db st fl t sc hwt.1]
          simp only [Option.map_some]
          rw [CRec.canon]
          show some (CRec.canon (.mk t (some (CRec.mk t i sc nf).ownRow.id)
            ([] ++ sc) (nfb.appendNF .nil))) = _
          rw [appendNF_nil, List.nil_append, CRec.canon, hcanon]
theorem recon_nf (decl : Decl) (db : DBName) (st : St) :
    ∀ (nf : NFlds) (t : RType) (fuel : Nat), nf.wt decl t = true →
      nf.storeHas db st = true → nf.depth ≤ fuel →
      ∃ nfb, buildFlds decl db st fuel t nf.rowFlds = ([], nfb) ∧
        nfb.canon = nf.canon
  | .nil, t, fuel => by intro _ _ _; exact ⟨.nil, rfl, rfl⟩
  | .single f r rest, t, fuel => by
      intro hwt hsh hd
      simp only [NFlds.wt, Bool.and_eq_true] at hwt
      obtain ⟨⟨hdecl0, hwtr⟩, hwtrest⟩ := hwt
      have hdecl : decl t f = some (.nested r.rtype) := of_decide_eq_true hdecl0
      simp only [NFlds.storeHas, Bool.and_eq_true] at hsh
      obtain ⟨⟨hlook0, hshr⟩, hshrest⟩ := hsh
      have hlook : jsonRecordLookup db r.rtype r.idOr0 st = some r.ownRow :=
        of_decide_eq_true hlook0
      rw [NFlds.depth] at hd
      obtain ⟨nfbR, hbuildR, hcanonR⟩ :=
        recon_nf decl db st rest t fuel hwtrest hshrest
          (le_trans (le_max_right _ _) hd)
      have hrec := recon_rec decl db st r fuel hwtr hshr
        (le_trans (le_max_left _ _) hd)
      obtain ⟨m, hm, hmc⟩ := map_canon_some _ _ hrec
      refine ⟨.single f m nfbR, ?_, ?_⟩
      · have hstep : buildFlds decl db st fuel t ((NFlds.single f r rest).rowFlds)
            = bStep decl db st fuel t (f, .idv r.idOr0)
                (buildFlds decl db st fuel t rest.rowFlds) := rfl
        rw [hstep, hbuildR]
        simp [bStep, hdecl, hlook, hm]
      · rw [NFlds.canon, NFlds.canon, hmc, hcanonR]
  | .list f rs rest, t, fuel => by
      intro hwt hsh hd
      simp only [NFlds.wt, Bool.and_eq_true] at hwt
      obtain ⟨hhead, hwtrest⟩ := hwt
      simp only [NFlds.storeHas, Bool.and_eq_true] at hsh
      obtain ⟨hshrs, hshrest⟩ := hsh
      rw [NFlds.depth] at hd
      obtain ⟨nfbR, hbuildR, hcanonR⟩ :=
        recon_nf decl db st rest t fuel hwtrest hshrest
          (le_trans (le_max_right _ _) hd)
      cases hdecl : decl t f with
      | none => rw [hdecl] at hhead; simp at hhead
      | some k =>
          cases k with
          | scalar => rw [hdecl] at hhead; simp at hhead
          | nested u => rw [hdecl] at hhead; simp at hhead
          | nestedList u =>
              rw [hdecl] at hhead
              simp only [Bool.and_eq_true] at hhead
              obtain ⟨hall, hwtrs⟩ := hhead
              cases rs with
              | rnil =>
                  refine ⟨nfbR, ?_, ?_⟩
                  · have hstep : buildFlds decl db st fuel t
                        ((NFlds.list f .rnil rest).rowFlds)
                        = bStep decl db st fuel t (f, DVal.null)
                            (buildFlds decl db st fuel t rest.rowFlds) := rfl
                    rw [hstep, hbuildR]
                    simp [bStep, hdecl, DVal.truthy]
                  · rw [NFlds.canon, hcanonR]
              | rcons a b =>
                  obtain ⟨ms, hms, hlen, hcanonL⟩ :=
                    recon_recl decl db st (.rcons a b) u fuel hall hwtrs hshrs
                      (le_trans (le_max_left _ _) hd)
                  cases ms with
                  | nil =>
                      rw [RecL.ids] at hlen
                      simp at hlen
                  | cons m2 ms2 =>
                      refine ⟨.list f (RecL.ofList (m2 :: ms2)) nfbR, ?_, ?_⟩
                      · have hstep : buildFlds decl db st fuel t
                            ((NFlds.list f (.rcons a b) rest).rowFlds)
                            = bStep decl db st fuel t
                                (f, DVal.idList (RecL.rcons a b).ids)
                                (buildFlds decl db st fuel t rest.rowFlds) := rfl
                        rw [hstep, hbuildR]
                        have htr : (DVal.idList (RecL.rcons a b).ids).truthy = true := by
                          rw [RecL.ids]
                          simp [DVal.truthy]
                        simp only [bStep, hdecl, htr, if_pos, DVal.idsOf]
                        rw [hms]
                      · have hred : RecL.ofList (m2 :: ms2)
                            = .rcons m2 (RecL.ofList ms2) := rfl
                        rw [hred, NFlds.canon, ← hred, hcanonL, hcanonR, NFlds.canon]
theorem recon_recl (decl : Decl) (db : DBName) (st : St) :
    ∀ (rs : RecL) (u : RType) (fuel : Nat), rs.allType u = true →
      rs.wt decl = true → rs.storeHas db st = true → rs.depth ≤ fuel →
      ∃ ms : List CRec,
        rs.ids.filterMap
            (fun n => createRecord decl db st fuel u (jsonRecordLookup db u n st))
          = ms ∧
        ms.length = rs.ids.length ∧
        (RecL.ofList ms).canonL = rs.canonL
  | .rnil, u, fuel => by intro _ _ _ _; exact ⟨[], rfl, rfl, rfl⟩
  | .rcons a b, u, fuel => by
      intro hall hwt hsh hd
      simp only [RecL.allType, Bool.and_eq_true] at hall
      obtain ⟨hau0, hallb⟩ := hall
      have hau : a.rtype = u := by simpa using hau0
      simp only [RecL.wt, Bool.and_eq_true] at hwt
      simp only [RecL.storeHas, Bool.and_eq_true] at hsh
      obtain ⟨⟨hlook0, hsha⟩, hshb⟩ := hsh
      have hlook : jsonRecordLookup db a.rtype a.idOr0 st = some a.ownRow :=
        of_decide_eq_true hlook0
      rw [RecL.depth] at hd
      obtain ⟨ms2, hms2, hlen2, hcanon2⟩ :=
        recon_recl decl db st b u fuel hallb hwt.2 hshb
          (le_trans (le_max_right _ _) hd)
      have hrec := recon_rec decl db st a fuel hwt.1 hsha
        (le_trans (le_max_left _ _) hd)
      obtain ⟨m, hm, hmc⟩ := map_canon_some _ _ hrec
      subst hau
      refine ⟨m :: ms2, ?_, ?_, ?_⟩
      · rw [RecL.ids, List.filterMap_cons, hlook, hm]
        rw [hms2]
      · rw [RecL.ids]
        simp [hlen2]
      · have : RecL.ofList (m :: ms2) = .rcons m (RecL.ofList ms2) := rfl
        rw [this, RecL.canonL, RecL.canonL, hmc, hcanon2]
end

/-- C1: the round trip.  Writing an acyclic, well-typed record tree with
no preset identifiers into a fresh file-backed database through
`CDEDatabase.add` and reading it back through `CDEDatabase.record` (with
the mutated record's type and `_id`, and fuel at least the tree's depth)
returns a record whose serialized form (`canon`, modelled from the spec)
equals the original's, field for field. -/
theorem c1_round_trip_add_record (decl : Decl) (db : DBName) (r : CRec)
    (fuel : Nat) (hwt : r.wt decl = true) (hno : r.noIds = true)
    (hfuel : r.depth ≤ fuel) :
    ((dbRecord decl db (dbAdd db [r] freshSt).2 fuel
        (((dbAdd db [r] freshSt).1.headD r).rtype)
        (((dbAdd db [r] freshSt).1.headD r).idOr0)).map CRec.canon)
      = some r.canon := by
  have hlist : (dbAdd db [r] freshSt).1 = [(r.assignIds db freshSt).1] := by
    rw [dbAdd_single]
  rw [hlist, List.headD_cons, dbRecord]
  have hlook := dbAdd_fresh_lookups db r hno
    (((r.assignIds db freshSt).1).rtype, ((r.assignIds db freshSt).1).ownRow)
    (ownRow_mem_flat (r.assignIds db freshSt).1)
  rw [ownRow_id] at hlook
  rw [hlook]
  have hrt := recon_rec decl db (dbAdd db [r] freshSt).2 (r.assignIds db freshSt).1 fuel
    (by rw [assignIds_wt_rec]; exact hwt)
    (dbAdd_storeHas db r hno)
    (by rw [assignIds_depth_rec]; exact hfuel)
  rw [hrt, assignIds_canon_rec]

/-- C1 witness: a two-level tree (one scalar field, one single nested
record, one two-element nested list) written into a fresh database and
read back; the serialized forms agree. -/
theorem c1_round_trip_add_record_witness :
    ((CRec.mk "T" none [("a", "x")]
        (.single "c" (.mk "U" none [("b", "1")] .nil)
          (.list "xs" (.rcons (.mk "U" none [("b", "2")] .nil)
            (.rcons (.mk "U" none [("b", "3")] .nil) .rnil)) .nil))).wt
        (fun t f =>
          if t = "T" then
            (if f = "a" then some .scalar
             else if f = "c" then some (.nested "U")
             else if f = "xs" then some (.nestedList "U") else none)
          else if t = "U" then (if f = "b" then some .scalar else none)
          else none) = true) ∧
    ((CRec.mk "T" none [("a", "x")]
        (.single "c" (.mk "U" none [("b", "1")] .nil)
          (.list "xs" (.rcons (.mk "U" none [("b", "2")] .nil)
            (.rcons (.mk "U" none [("b", "3")] .nil) .rnil)) .nil))).noIds = true) ∧
    ((dbRecord
        (fun t f =>
          if t = "T" then
            (if f = "a" then some .scalar
             else if f = "c" then some (.nested "U")
             else if f = "xs" then some (.nestedList "U") else none)
          else if t = "U" then (if f = "b" then some .scalar else none)
          else none)
        "d"
        (dbAdd "d" [CRec.mk "T" none [("a", "x")]
          (.single "c" (.mk "U" none [("b", "1")] .nil)
            (.list "xs" (.rcons (.mk "U" none [("b", "2")] .nil)
              (.rcons (.mk "U" none [("b", "3")] .nil) .rnil)) .nil))] freshSt).2
        3
        (((dbAdd "d" [CRec.mk "T" none [("a", "x")]
          (.single "c" (.mk "U" none [("b", "1")] .nil)
            (.list "xs" (.rcons (.mk "U" none [("b", "2")] .nil)
              (.rcons (.mk "U" none [("b", "3")] .nil) .rnil)) .nil))] freshSt).1.headD
          (CRec.mk "T" none [("a", "x")]
            (.single "c" (.mk "U" none [("b", "1")] .nil)
              (.list "xs" (.rcons (.mk "U" none [("b", "2")] .nil)
                (.rcons (.mk "U" none [("b", "3")] .nil) .rnil)) .nil)))).rtype)
        (((dbAdd "d" [CRec.mk "T" none [("a", "x")]
          (.single "c" (.mk "U" none [("b", "1")] .nil)
            (.list "xs" (.rcons (.mk "U" none [("b", "2")] .nil)
              (.rcons (.mk "U" none [("b", "3")] .nil) .rnil)) .nil))] freshSt).1.headD
          (CRec.mk "T" none [("a", "x")]
            (.single "c" (.mk "U" none [("b", "1")] .nil)
              (.list "xs" (.rcons (.mk "U" none [("b", "2")] .nil)
                (.rcons (.mk "U" none [("b", "3")] .nil) .rnil)) .nil)))).idOr0)).map
        CRec.canon)
      = some (CRec.mk "T" none [("a", "x")]
          (.single "c" (.mk "U" none [("b", "1")] .nil)
            (.list "xs" (.rcons (.mk "U" none [("b", "2")] .nil)
              (.rcons (.mk "U" none [("b", "3")] .nil) .rnil)) .nil)) : CRec).canon :=
  ⟨by decide, by decide,
   c1_round_trip_add_record
     (fun t f =>
       if t = "T" then
         (if f = "a" then some .scalar
          else if f = "c" then some (.nested "U")
          else if f = "xs" then some (.nestedList "U") else none)
       else if t = "U" then (if f = "b" then some .scalar else none)
       else none)
     "d"
     (CRec.mk "T" none [("a", "x")]
       (.single "c" (.mk "U" none [("b", "1")] .nil)
         (.list "xs" (.rcons (.mk "U" none [("b", "2")] .nil)
           (.rcons (.mk "U" none [("b", "3")] .nil) .rnil)) .nil)))
     3 (by decide) (by decide) (by decide)⟩

end CDEDB

